import Mathlib

/-!
# Verification of the Zip-puzzle generator (`src/generate.js`)

This file gives a shallow embedding of the generator's data model and
operations in Lean 4 and proves/refutes the frozen claims about it.

Modelling conventions:
* JS strings are modelled as `List Char` (`JStr`).
* JS numbers that the program uses as array indices, grid values and loop
  counters are modelled as `Nat`; record ids and parsed path coordinates,
  which may be arbitrary (possibly negative) integers, are modelled as `Int`.
* The JS `Math.random()` stream is modelled as an arbitrary function
  `Nat → Nat`; each call `randInt lo hi` consumes one value `u` and returns
  `lo + u % (hi - lo + 1)`, which realises exactly the same set of results
  as `lo + Math.floor(Math.random() * (hi - lo + 1))`.
* Reading `grid[r][c]` out of range yields `0` in the model (`List.getD`);
  the claims under verification only exercise in-range reads.
* Unbounded JS loops/recursions are modelled with an explicit fuel that is
  provably (or by construction) large enough; fuel exhaustion returns the
  conservative answer of the corresponding JS loop.
-/

set_option maxRecDepth 4000

abbrev Coord := Nat × Nat

abbrev Grid := List (List Nat)

/-- `grid[r][c]`, with `0` for an out-of-range read. -/
def cellVal (g : Grid) (r c : Nat) : Nat := (g.getD r []).getD c 0

/-- The board is an `n × n` matrix (`n = g.length`). -/
def squareGrid (g : Grid) : Prop := ∀ row ∈ g, row.length = g.length

/-- `neighbors4` from generate.js: orthogonal in-bounds neighbours of `(r, c)`
in the fixed order up, down, left, right. -/
def neighbors4 (n r c : Nat) : List Coord :=
  (if 0 < r then [(r - 1, c)] else []) ++
  (if r < n - 1 then [(r + 1, c)] else []) ++
  (if 0 < c then [(r, c - 1)] else []) ++
  (if c < n - 1 then [(r, c + 1)] else [])

/-- All cells of an `n × n` board in the row-major order the JS double loops
use (`allCells` in generate.js). -/
def allCells (n : Nat) : List Coord :=
  (List.range n).flatMap fun r => (List.range n).map fun c => (r, c)

/-- The non-zero values of the board, collected in row-major order (the
`req` collection loop of `solveZipDFS`). -/
def nonzeroVals (g : Grid) : List Nat :=
  ((allCells g.length).map fun q => cellVal g q.1 q.2).filter (· != 0)

/-- `posOf[v]`: the unique cell holding value `v` (the solver fills this
table after establishing that every value `1..K` occurs exactly once, so
the first row-major match is that unique cell). -/
def posOf (g : Grid) (v : Nat) : Option Coord :=
  (allCells g.length).find? fun q => cellVal g q.1 q.2 == v

/-- `isForbiddenCell` from generate.js: a numbered cell other than the next
required number is impassable for the current phase. -/
def isForbiddenCell (g : Grid) (r c : Nat) (needed : Option Nat) : Bool :=
  let v := cellVal g r c
  v != 0 && needed.isSome && needed != some v

/-- The solver's `visited` marker: exactly the cells currently on the path. -/
def visitedIn (path : List Coord) (r c : Nat) : Bool := path.contains (r, c)

/-- `canStandOn` from generate.js. -/
def canStandOn (g : Grid) (path : List Coord) (r c : Nat) (needed : Option Nat) : Bool :=
  !visitedIn path r c && !isForbiddenCell g r c needed

/-- `degreeOfCell` from generate.js: number of legal onward moves. -/
def degreeOfCell (g : Grid) (path : List Coord) (n r c : Nat) (needed : Option Nat) : Nat :=
  ((neighbors4 n r c).filter fun q => canStandOn g path q.1 q.2 needed).length

/-- One expansion step of the solver's BFS (`reachableToNeeded`): scan the
neighbour list, skipping seen/visited/forbidden cells, reporting `none` when
the target is generated and otherwise returning the extended seen set and
FIFO queue. -/
def bfsExpand (g : Grid) (path : List Coord) (needed : Nat) (tr tc : Nat) :
    List Coord → List Coord → List Coord → Option (List Coord × List Coord)
  | [], seen, q => some (seen, q)
  | (nr, nc) :: rest, seen, q =>
    if seen.contains (nr, nc) then bfsExpand g path needed tr tc rest seen q
    else if visitedIn path nr nc then bfsExpand g path needed tr tc rest seen q
    else if isForbiddenCell g nr nc (some needed) then bfsExpand g path needed tr tc rest seen q
    else if nr == tr && nc == tc then none
    else bfsExpand g path needed tr tc rest ((nr, nc) :: seen) (q ++ [(nr, nc)])

/-- The solver's BFS loop (`while (head < tail)`), with fuel bounding the
number of dequeues; `n * n` fuel covers every possible queue because each
cell is enqueued at most once. -/
def bfsLoop (g : Grid) (n : Nat) (path : List Coord) (needed : Nat) (tr tc : Nat) :
    Nat → List Coord → List Coord → Bool
  | 0, _, _ => false
  | _ + 1, [], _ => false
  | fuel + 1, (r, c) :: rest, seen =>
    match bfsExpand g path needed tr tc (neighbors4 n r c) seen rest with
    | none => true
    | some (seen', q') => bfsLoop g n path needed tr tc fuel q' seen'

/-- `reachableToNeeded` from generate.js: BFS over currently-walkable cells
from the current cell towards the cell holding the next required number. -/
def reachableToNeeded (g : Grid) (n : Nat) (path : List Coord) (curR curC : Nat)
    (needed : Option Nat) : Bool :=
  match needed with
  | none => true
  | some nv =>
    match posOf g nv with
    | none => false
    | some (tr, tc) =>
      if visitedIn path tr tc then true
      else if isForbiddenCell g tr tc (some nv) then false
      else bfsLoop g n path nv tr tc (n * n) [(curR, curC)] [(curR, curC)]

/-- The walkable unvisited cells in row-major order; the head is the seed
cell the JS scan picks. -/
def walkableCells (g : Grid) (n : Nat) (path : List Coord) (needed : Option Nat) : List Coord :=
  (allCells n).filter fun q => !visitedIn path q.1 q.2 && !isForbiddenCell g q.1 q.2 needed

/-- One expansion step of the connectivity flood fill. -/
def floodExpand (g : Grid) (path : List Coord) (needed : Option Nat) :
    List Coord → List Coord → List Coord → List Coord × List Coord
  | [], seen, q => (seen, q)
  | (nr, nc) :: rest, seen, q =>
    if seen.contains (nr, nc) || visitedIn path nr nc ||
        isForbiddenCell g nr nc needed then
      floodExpand g path needed rest seen q
    else floodExpand g path needed rest ((nr, nc) :: seen) (q ++ [(nr, nc)])

/-- The flood-fill loop of `walkableUnvisitedConnected`, counting reached
cells. -/
def floodLoop (g : Grid) (n : Nat) (path : List Coord) (needed : Option Nat) :
    Nat → List Coord → List Coord → Nat → Nat
  | 0, _, _, reached => reached
  | _ + 1, [], _, reached => reached
  | fuel + 1, (r, c) :: rest, seen, reached =>
    let next := floodExpand g path needed (neighbors4 n r c) seen rest
    floodLoop g n path needed fuel next.2 next.1 (reached + 1)

/-- `walkableUnvisitedConnected` from generate.js: the currently-walkable
unvisited cells must form a single connected component. -/
def walkableUnvisitedConnected (g : Grid) (n : Nat) (path : List Coord)
    (needed : Option Nat) : Bool :=
  let walk := walkableCells g n path needed
  match walk with
  | [] => true
  | seed :: _ =>
    floodLoop g n path needed (n * n) [seed] [seed] 0 == walk.length

/-- The `newNextReq` computation of the DFS step: stepping onto the next
required checkpoint advances the counter. -/
def newNextReq (g : Grid) (nr nc nextReq : Nat) (needed : Option Nat) : Nat :=
  let v := cellVal g nr nc
  if v != 0 && needed == some v then nextReq + 1 else nextReq

/-- The recursive `dfs` of `solveZipDFS`.  The JS mutable `visited`/`path`
pair is the explicit `path` argument (its members are the visited cells);
the JS push/recurse/pop discipline becomes recursion on `path ++ [q]`.
Candidates are sorted stably by degree (JS `Array.prototype.sort` is
stable, and a stable sort under one key is unique), ties keeping the fixed
up/down/left/right enumeration order.  Fuel bounds the recursion depth;
`n * n` fuel is enough since every call grows the path towards `n * n`. -/
def dfs (g : Grid) (n K : Nat) : Nat → List Coord → Nat → Nat → Nat → Option (List Coord)
  | 0, _, _, _, _ => none
  | fuel + 1, path, r, c, nextReq =>
    if path.length == n * n then
      if nextReq == K + 1 && cellVal g r c == K then some path else none
    else
      let needed : Option Nat := if nextReq ≤ K then some nextReq else none
      if !reachableToNeeded g n path r c needed then none
      else if !walkableUnvisitedConnected g n path needed then none
      else
        let cand := (neighbors4 n r c).filter fun q => canStandOn g path q.1 q.2 needed
        let sorted := List.insertionSort
          (fun a b => degreeOfCell g path n a.1 a.2 needed ≤ degreeOfCell g path n b.1 b.2 needed)
          cand
        sorted.findSome? fun q =>
          dfs g n K fuel (path ++ [q]) q.1 q.2 (newNextReq g q.1 q.2 nextReq needed)

/-- `solveZipDFS` from generate.js: validate the contiguity invariant
(non-zero values sorted must be exactly `1..K`), locate the checkpoints and
run the pruned DFS from the cell holding `1`. -/
def solveZipDFS (g : Grid) : Option (List Coord) :=
  let n := g.length
  let req := List.insertionSort (· ≤ ·) (nonzeroVals g)
  if req.length == 0 then none
  else if req.head? != some 1 then none
  else if req != List.range' 1 req.length then none
  else
    let K := req.length
    if (nonzeroVals g).any fun v => K < v then none
    else
      match posOf g 1 with
      | none => none
      | some s => dfs g n K (n * n) [s] s.1 s.2 2

/-! ## JS strings, decimal printing/parsing, the compact path format -/

abbrev JStr := List Char

/-- JS whitespace (the characters relevant to `String.prototype.trim` on the
strings this program handles). -/
def isSpaceChar (c : Char) : Bool :=
  c == ' ' || c == '\t' || c == '\n' || c == '\r'

/-- `!s.trim()`: a string trims to empty iff every character is whitespace. -/
def isBlank (s : JStr) : Bool := s.all isSpaceChar

/-- Decimal digit characters. -/
def digitChar (m : Nat) : Char :=
  match m with
  | 0 => '0' | 1 => '1' | 2 => '2' | 3 => '3' | 4 => '4'
  | 5 => '5' | 6 => '6' | 7 => '7' | 8 => '8' | _ => '9'

/-- Decimal digits of `m`, most significant first (fuel-driven; `natChars`
supplies enough fuel). -/
def natCharsAux : Nat → Nat → List Char
  | 0, _ => []
  | fuel + 1, m =>
    if m < 10 then [digitChar m]
    else natCharsAux fuel (m / 10) ++ [digitChar (m % 10)]

/-- The decimal string of a natural number (JS number-to-string on the
naturals this program prints). -/
def natChars (m : Nat) : List Char := natCharsAux (m + 1) m

/-- The decimal string of an integer (JS `${i}` template interpolation). -/
def intChars (i : Int) : List Char :=
  if i < 0 then '-' :: natChars i.natAbs else natChars i.toNat

/-- The numeric value of a digit character, `none` on non-digits. -/
def digitVal (c : Char) : Option Nat :=
  if '0' ≤ c && c ≤ '9' then some (c.toNat - '0'.toNat) else none

/-- Accumulating decimal parse: succeeds only when every character is a
digit. -/
def parseDigitsAux (acc : Nat) : List Char → Option Nat
  | [] => some acc
  | c :: rest =>
    match digitVal c with
    | some d => parseDigitsAux (acc * 10 + d) rest
    | none => none

/-- JS `Number()` on the fragment this program produces and consumes:
all-whitespace strings evaluate to `0`, an optional minus sign followed by
decimal digits evaluates to the signed value, anything else is `NaN`
(modelled as `none`).  (Full JS `Number` also accepts exponent/hex/decimal
forms that never occur here.) -/
def jsNumber (s : JStr) : Option Int :=
  if isBlank s then some 0
  else
    match s with
    | '-' :: rest =>
      if rest.isEmpty then none
      else (parseDigitsAux 0 rest).map fun m => -(m : Int)
    | _ => (parseDigitsAux 0 s).map fun m => (m : Int)

/-- `Array.prototype.join(sep)` for the single-character separators used
here. -/
def joinSep (sep : Char) : List JStr → JStr
  | [] => []
  | [s] => s
  | s :: rest => s ++ sep :: joinSep sep rest

/-- `String.prototype.split(sep)` for a single-character separator (always
returns at least one (possibly empty) piece, like JS). -/
def splitOnChar (sep : Char) : JStr → List JStr
  | [] => [[]]
  | c :: rest =>
    if c = sep then [] :: splitOnChar sep rest
    else
      match splitOnChar sep rest with
      | [] => [[c]]
      | h :: t => (c :: h) :: t

/-- `solutionPathToString` from generate.js: `"r,c;r,c;..."`. -/
def solutionPathToString (p : List (Int × Int)) : JStr :=
  joinSep ';' (p.map fun q => intChars q.1 ++ ',' :: intChars q.2)

/-- Parsing one `"r,c"` piece: JS destructures the first two components of
`p.split(",")` (`cs` is `undefined`, hence `NaN`, when there is no comma)
and demands both numbers be finite. -/
def parseCoordPiece (p : JStr) : Option (Int × Int) :=
  match splitOnChar ',' p with
  | rs :: cs :: _ =>
    match jsNumber rs, jsNumber cs with
    | some r, some c => some (r, c)
    | _, _ => none
  | _ => none

/-- The piece-collection loop of `stringToSolutionPath`: any bad piece makes
the whole parse return `null`. -/
def parsePathPieces : List JStr → Option (List (Int × Int))
  | [] => some []
  | p :: rest =>
    match parseCoordPiece p with
    | some q => (parsePathPieces rest).map (q :: ·)
    | none => none

/-- `stringToSolutionPath` from generate.js. -/
def stringToSolutionPath (s : JStr) : Option (List (Int × Int)) :=
  if isBlank s then none
  else parsePathPieces (splitOnChar ';' s)

/-- Solver paths (natural coordinates) seen as JS number pairs. -/
def intPath (p : List Coord) : List (Int × Int) :=
  p.map fun q => ((q.1 : Int), (q.2 : Int))

/-- `gridKey` from generate.js: rows joined by `","` within and `";"`
between. -/
def gridKey (g : Grid) : JStr :=
  joinSep ';' (g.map fun row => joinSep ',' (row.map fun v => natChars v))

/-- `puzzleGridKey` from generate.js: `` `${n}|${gridKey(grid)}` ``. -/
def puzzleGridKey (n : Nat) (g : Grid) : JStr :=
  natChars n ++ '|' :: gridKey g

/-- `puzzleSolutionKey` from generate.js:
`` `${n}|${solutionPathToString(path)}` ``. -/
def puzzleSolutionKey (n : Nat) (p : List (Int × Int)) : JStr :=
  natChars n ++ '|' :: solutionPathToString p

/-- `x.trim()` on a cell string of the legacy pretty format. -/
def jsTrimChars (s : JStr) : JStr :=
  ((s.dropWhile isSpaceChar).reverse.dropWhile isSpaceChar).reverse

/-- The row extraction of `prettyStringToGrid`: the matches of the regex
`/\[[^\[\]]+\]/g`, i.e. the bracket-delimited nonempty runs of non-bracket
characters, scanned left to right.  Fuel is the string length, which covers
the scan. -/
def extractRowsAux : Nat → JStr → List JStr
  | 0, _ => []
  | fuel + 1, s =>
    match s with
    | [] => []
    | '[' :: rest =>
      let content := rest.takeWhile fun c => c ≠ '[' && c ≠ ']'
      match rest.dropWhile (fun c => c ≠ '[' && c ≠ ']') with
      | ']' :: rest2 =>
        if content.isEmpty then extractRowsAux fuel rest
        else content :: extractRowsAux fuel rest2
      | _ => extractRowsAux fuel rest
    | _ :: rest => extractRowsAux fuel rest

/-- A grid cell of the legacy pretty format: `Number(x.trim())`, kept only
when it is a natural number (the data model's grid values; a `NaN` or
negative entry makes the decode fail in the model, where JS would produce a
grid that no later step treats as solvable). -/
def parseCellNat (s : JStr) : Option Nat :=
  (jsNumber (jsTrimChars s)).bind fun i => if i < 0 then none else some i.toNat

/-- `prettyStringToGrid` from generate.js (legacy board encoding). -/
def prettyStringToGrid (s : JStr) : Option Grid :=
  let rowStrs := extractRowsAux s.length s
  if rowStrs.isEmpty then none
  else
    match rowStrs.mapM fun rowStr => (splitOnChar ',' rowStr).mapM parseCellNat with
    | none => none
    | some rows =>
      let n := (rows.headD []).length
      if n = 0 then none
      else if rows.any fun r => r.length ≠ n then none
      else some rows

/-! ## The random sampler (`randInt`, `shuffle`, `randomPuzzleGrid`) -/

/-- A behaviour of the random source: the `t`-th call to `Math.random()`
yields the value `f t` (used modulo the requested range). -/
abbrev RNG := Nat → Nat

/-- Advance the random stream past `k` consumed values. -/
def shiftRNG (k : Nat) (f : RNG) : RNG := fun i => f (i + k)

/-- `randInt(lo, hi)` from generate.js, fed one random value `u`:
`lo + Math.floor(Math.random() * (hi - lo + 1))`. -/
def randInt (lo hi u : Nat) : Nat := lo + u % (hi - lo + 1)

/-- The Fisher–Yates swap `[arr[i], arr[j]] = [arr[j], arr[i]]`. -/
def listSwap (l : List α) (a b : Nat) : List α :=
  match l.get? a, l.get? b with
  | some x, some y => (l.set a y).set b x
  | _, _ => l

/-- The `shuffle` loop of generate.js: for `i` from `len - 1` down to `1`,
swap position `i` with a random position `j ∈ [0, i]`; `t` indexes the
random stream. -/
def shuffleAux (f : RNG) : Nat → List α → Nat → List α
  | _, l, 0 => l
  | t, l, i + 1 => shuffleAux f (t + 1) (listSwap l (i + 1) (f t % (i + 2))) i

/-- `shuffle` from generate.js, consuming random values `f t0, f (t0+1), …`. -/
def shuffle (f : RNG) (t0 : Nat) (l : List α) : List α :=
  shuffleAux f t0 l (l.length - 1)

/-- `makeEmptyGrid` from generate.js. -/
def makeEmptyGrid (n : Nat) : Grid := List.replicate n (List.replicate n 0)

/-- `grid[r][c] = v`. -/
def setCell (g : Grid) (r c v : Nat) : Grid :=
  g.set r ((g.getD r []).set c v)

/-- The label-placing loop of `randomPuzzleGrid`: assign `k, k+1, …` to the
successive cells. -/
def placeLabels : Grid → List Coord → Nat → Grid
  | g, [], _ => g
  | g, q :: rest, k => placeLabels (setCell g q.1 q.2 k) rest (k + 1)

/-- `kRangeForN` from generate.js: `lo = n`, `hi = 2n + max(0, n − 3)`
(natural subtraction realises the `max`). -/
def kRangeForN (n : Nat) : Nat × Nat := (n, 2 * n + (n - 3))

/-- `randomPuzzleGrid` from generate.js: sample `K`, shuffle all cells, and
label the first `K` cells `1..K`.  Consumes `n * n` random values
(one for `K`, `n*n - 1` for the shuffle). -/
def randomPuzzleGrid (n : Nat) (f : RNG) : Grid :=
  let lohi := kRangeForN n
  let K := randInt lohi.1 lohi.2 (f 0)
  let cells := shuffle f 1 (allCells n)
  placeLabels (makeEmptyGrid n) (cells.take K) 1

/-- `generateSolvablePuzzle` from generate.js: up to `maxAttempts` sampled
candidates, returning the first solvable one together with the advanced
random stream. -/
def generateSolvablePuzzle (n : Nat) : Nat → RNG → Option (Grid × List Coord) × RNG
  | 0, f => (none, f)
  | fuel + 1, f =>
    let g := randomPuzzleGrid n f
    match solveZipDFS g with
    | some p => (some (g, p), shiftRNG (n * n) f)
    | none => generateSolvablePuzzle n fuel (shiftRNG (n * n) f)

/-! ## The persisted collection and the `main` orchestration -/

/-- The `grid` field of a persisted record: a literal 2D array, a legacy
pretty string, or anything else (including a missing field or a `null`
record, which the load loop treats identically). -/
inductive JsonGrid where
  | arr (g : Grid)
  | str (s : JStr)
  | other
deriving DecidableEq

/-- The `solutionPath` field of a persisted record: a coordinate array, a
compact string, or anything else. -/
inductive JsonPath where
  | arr (p : List (Int × Int))
  | str (s : JStr)
  | other
deriving DecidableEq

/-- A persisted puzzle record as the load loop sees it (`id` is `some i`
exactly when `Number.isFinite(p.id)`). -/
structure RawRecord where
  id : Option Int
  grid : JsonGrid
  solutionPath : JsonPath
deriving DecidableEq

/-- Board decoding on load: literal arrays are used as-is, strings go
through the legacy decoder. -/
def decodeGrid : JsonGrid → Option Grid
  | .arr g => some g
  | .str s => prettyStringToGrid s
  | .other => none

/-- Path decoding on load: literal arrays are used as-is, strings are
parsed. -/
def decodeSol : JsonPath → Option (List (Int × Int))
  | .arr p => some p
  | .str s => stringToSolutionPath s
  | .other => none

/-- The record's canonical board key, when its board decodes. -/
def recGridKey (p : RawRecord) : Option JStr :=
  (decodeGrid p.grid).map fun g => puzzleGridKey g.length g

/-- The record's canonical path key, when both its board (for the size
component) and its path decode. -/
def recSolKey (p : RawRecord) : Option JStr :=
  match decodeGrid p.grid, decodeSol p.solutionPath with
  | some g, some s => some (puzzleSolutionKey g.length s)
  | _, _ => none

/-- The dedupe bookkeeping built by the load loop of `main` (the JS `Set`s
are modelled as lists with membership insertion at the front). -/
structure LoadState where
  seenGrids : List JStr
  seenSols : List JStr
  nextId : Int

/-- One iteration of the load loop of `main`: records without a decodable
board are skipped wholesale; otherwise the board key is recorded, `nextId`
is raised past a finite id, and the path key of the decoded (or, failing
that, re-solved) path is recorded. -/
def loadRecord (st : LoadState) (p : RawRecord) : LoadState :=
  match decodeGrid p.grid with
  | none => st
  | some grid =>
    let n := grid.length
    let st1 : LoadState :=
      { st with seenGrids := puzzleGridKey n grid :: st.seenGrids }
    let st2 : LoadState :=
      match p.id with
      | some i => { st1 with nextId := max st1.nextId (i + 1) }
      | none => st1
    let sol : Option (List (Int × Int)) :=
      match decodeSol p.solutionPath with
      | some s => some s
      | none => (solveZipDFS grid).map intPath
    match sol with
    | some s => { st2 with seenSols := puzzleSolutionKey n s :: st2.seenSols }
    | none => st2

/-- The whole load loop, starting from empty sets and `nextId = 1`. -/
def loadPhase (existing : List RawRecord) : LoadState :=
  existing.foldl loadRecord ⟨[], [], 1⟩

/-- The evolving state of a generation run. -/
structure RunState where
  puzzles : List RawRecord
  seenGrids : List JStr
  seenSols : List JStr
  nextId : Int
  rng : RNG

/-- The final state of one per-size `while (got < target)` loop. -/
structure SizeOutcome where
  state : RunState
  got : Nat
  fails : Nat
  attempts : Nat

/-- `MAX_CONSECUTIVE_FAILS` from generate.js. -/
def MAX_CONSECUTIVE_FAILS : Nat := 100

/-- The per-size generation loop of `main`.  A failed draw or a duplicate
increments `fails` and breaks out at `MAX_CONSECUTIVE_FAILS`; an acceptance
appends a freshly id-ed record, extends both key sets and resets `fails`.
Fuel bounds the number of iterations; `sizeFuel` below is provably enough. -/
def sizeLoop (n target : Nat) : Nat → RunState → Nat → Nat → Nat → SizeOutcome
  | 0, st, got, fails, att => ⟨st, got, fails, att⟩
  | fuel + 1, st, got, fails, att =>
    if got < target then
      let draw := generateSolvablePuzzle n 2000 st.rng
      let st' : RunState := { st with rng := draw.2 }
      match draw.1 with
      | none =>
        if fails + 1 ≥ MAX_CONSECUTIVE_FAILS then ⟨st', got, fails + 1, att + 1⟩
        else sizeLoop n target fuel st' got (fails + 1) (att + 1)
      | some (g, p) =>
        let gKey := puzzleGridKey n g
        let sKey := puzzleSolutionKey n (intPath p)
        if st'.seenGrids.contains gKey || st'.seenSols.contains sKey then
          if fails + 1 ≥ MAX_CONSECUTIVE_FAILS then ⟨st', got, fails + 1, att + 1⟩
          else sizeLoop n target fuel st' got (fails + 1) (att + 1)
        else
          let newRec : RawRecord :=
            ⟨some st'.nextId, .arr g, .str (solutionPathToString (intPath p))⟩
          let st'' : RunState :=
            { puzzles := st'.puzzles ++ [newRec]
              seenGrids := gKey :: st'.seenGrids
              seenSols := sKey :: st'.seenSols
              nextId := st'.nextId + 1
              rng := st'.rng }
          sizeLoop n target fuel st'' (got + 1) 0 (att + 1)
    else ⟨st, got, fails, att⟩

/-- Enough fuel for `sizeLoop`: each acceptance happens within
`MAX_CONSECUTIVE_FAILS` iterations of the previous one. -/
def sizeFuel (target : Nat) : Nat := (target + 1) * (MAX_CONSECUTIVE_FAILS + 1)

/-- The per-size targets of `main`: floor division of the total count with
the remainder distributed to the first sizes in ascending order. -/
def targetsFor (count : Nat) (sizes : List Nat) : List (Nat × Nat) :=
  let base := count / sizes.length
  let rem := count % sizes.length
  sizes.mapIdx fun i s => (s, base + if i < rem then 1 else 0)

/-- `targets.get(n) || 0`: a JS `Map` keeps the last value set for a key. -/
def targetOf (pairs : List (Nat × Nat)) (s : Nat) : Nat :=
  (((pairs.filter fun q => q.1 == s).getLast?).map (·.2)).getD 0

/-- The command-line parameters after `parseArgs` normalisation. -/
structure Args where
  count : Nat
  sizes : List Nat

/-- The post-conditions `parseArgs` guarantees (defaults applied, sizes
filtered to numbers `≥ 2`, positive count). -/
def Args.Normalized (a : Args) : Prop :=
  1 ≤ a.count ∧ a.sizes ≠ [] ∧ ∀ s ∈ a.sizes, 2 ≤ s

/-- The generation phase of `main` on an already-loaded collection: sort the
sizes ascending, compute the targets and run the per-size loop for each
size in order, threading the collection, key sets, id counter and random
stream. -/
def mainRun (args : Args) (existing : List RawRecord) (f : RNG) : RunState :=
  let ls := loadPhase existing
  let st0 : RunState := ⟨existing, ls.seenGrids, ls.seenSols, ls.nextId, f⟩
  let sizes := List.insertionSort (· ≤ ·) args.sizes
  let tpairs := targetsFor args.count sizes
  sizes.foldl
    (fun st s => (sizeLoop s (targetOf tpairs s) (sizeFuel (targetOf tpairs s)) st 0 0 0).state)
    st0

/-- The persisted document as `safeReadJson` can encounter it: a missing
file, or raw content `s` whose `JSON.parse` result is `parsed` (`none` when
parsing throws; `some none` when the parse succeeds but `json?.zips` is not
an array; `some (some zips)` otherwise). -/
inductive PersistedFile where
  | missing
  | raw (s : JStr) (parsed : Option (Option (List RawRecord)))

/-- `safeReadJson` from generate.js: `null` for a missing file, blank
content, or content whose parse throws (the `catch` turns the exception
into a warning), otherwise the parsed document.  The function is total:
no error escapes the load step. -/
def safeReadJson : PersistedFile → Option (Option (List RawRecord))
  | .missing => none
  | .raw s parsed => if isBlank s then none else parsed

/-- `Array.isArray(existingJson?.zips) ? existingJson.zips : []`. -/
def loadExisting (fs : PersistedFile) : List RawRecord :=
  match safeReadJson fs with
  | some (some zips) => zips
  | _ => []

/-- `main` from the document on disk: load (tolerantly), then generate. -/
def mainRunFile (args : Args) (fs : PersistedFile) (f : RNG) : RunState :=
  mainRun args (loadExisting fs) f

/-! ## The specification predicate for a valid covering path -/

/-- Orthogonal adjacency of two cells. -/
def isAdjacent (a b : Coord) : Prop :=
  (a.1 = b.1 ∧ (a.2 + 1 = b.2 ∨ b.2 + 1 = a.2)) ∨
  (a.2 = b.2 ∧ (a.1 + 1 = b.1 ∨ b.1 + 1 = a.1))

instance : DecidableRel isAdjacent := fun a b =>
  inferInstanceAs (Decidable
    ((a.1 = b.1 ∧ (a.2 + 1 = b.2 ∨ b.2 + 1 = a.2)) ∨
     (a.2 = b.2 ∧ (a.1 + 1 = b.1 ∨ b.1 + 1 = a.1))))

/-- The board values read along a path. -/
def pathVals (g : Grid) (p : List Coord) : List Nat :=
  p.map fun q => cellVal g q.1 q.2

/-- A valid covering path for a board whose checkpoints are `1..K`, exactly
as the claims state it: `n²` pairwise-distinct in-bounds coordinates,
consecutive coordinates orthogonally adjacent, the non-zero values read
along the path in order being exactly `1, 2, …, K`, the first coordinate
holding `1` and the last holding `K`. -/
def ValidCover (g : Grid) (K : Nat) (p : List Coord) : Prop :=
  p.length = g.length * g.length ∧
  p.Nodup ∧
  p.Chain' isAdjacent ∧
  (∀ q ∈ p, q.1 < g.length ∧ q.2 < g.length) ∧
  (pathVals g p).filter (· != 0) = List.range' 1 K ∧
  (p.head?.map fun q => cellVal g q.1 q.2) = some 1 ∧
  (p.getLast?.map fun q => cellVal g q.1 q.2) = some K

/-- A computation-friendly decision procedure for `Chain` (the Mathlib
instance is tactic-built and does not reduce in the kernel). -/
def decChainAdj (a : Coord) : (l : List Coord) → Decidable (List.Chain isAdjacent a l)
  | [] => isTrue List.Chain.nil
  | b :: l =>
    haveI := decChainAdj b l
    decidable_of_iff (isAdjacent a b ∧ List.Chain isAdjacent b l) List.chain_cons.symm

instance decChainAdj' : (l : List Coord) → Decidable (l.Chain' isAdjacent)
  | [] => isTrue trivial
  | a :: l => decChainAdj a l

instance (g : Grid) (K : Nat) (p : List Coord) : Decidable (ValidCover g K p) :=
  inferInstanceAs (Decidable
    (p.length = g.length * g.length ∧
     p.Nodup ∧
     p.Chain' isAdjacent ∧
     (∀ q ∈ p, q.1 < g.length ∧ q.2 < g.length) ∧
     (pathVals g p).filter (· != 0) = List.range' 1 K ∧
     (p.head?.map fun q => cellVal g q.1 q.2) = some 1 ∧
     (p.getLast?.map fun q => cellVal g q.1 q.2) = some K))

/-! ## Concrete instances used by the claim analyses -/

/-- A board whose non-zero values are exactly `1..4` on which the
connectivity prune fires at the root of the search even though a valid
covering path exists. -/
def pruneCexGrid : Grid := [[2, 3, 0], [0, 4, 0], [1, 0, 0]]

/-- A valid covering path for `pruneCexGrid`: it collects checkpoint 2 in
the left region, then crosses through checkpoints 3 and 4 (legal once 2 is
consumed) into the right region.  At the root state the cells
`{(0,0),(1,0)}` and `{(0,2),(1,2),(2,1),(2,2)}` are separated by the
then-forbidden cells holding 3 and 4, so `walkableUnvisitedConnected` is
false there. -/
def pruneCexPath : List Coord :=
  [(2, 0), (1, 0), (0, 0), (0, 1), (0, 2), (1, 2), (2, 2), (2, 1), (1, 1)]

/-- A random stream making `randomPuzzleGrid 2` produce the solvable board
`[[1,2],[3,0]]` at the first attempt (K = 3, identity shuffle). -/
def tfRNG : RNG := fun t => [1, 3, 2, 1].getD t 0

/-- Arguments of a minimal run: one new puzzle of size 2. -/
def oneOf2Args : Args := ⟨1, [2]⟩

/-- A well-formed persisted record (decodable board and path) that is
stored twice in `dupExisting`. -/
def dupRecord : RawRecord :=
  ⟨some 1, .arr [[2, 1], [3, 0]], .str ['0', ',', '0']⟩

/-- A persisted collection holding the same record twice. -/
def dupExisting : List RawRecord := [dupRecord, dupRecord]

/-- A persisted record with a large finite id whose board does not decode:
the load loop skips it before reading its id. -/
def badIdExisting : List RawRecord := [⟨some 7, .other, .other⟩]

/-- Pairwise distinctness of both canonical keys over a record list: no two
records share a (decodable) board key, and none share a (decodable) path
key. -/
def DistinctKeys (l : List RawRecord) : Prop :=
  l.Pairwise fun a b =>
    (∀ k, recGridKey a = some k → recGridKey b ≠ some k) ∧
    (∀ k, recSolKey a = some k → recSolKey b ≠ some k)

/-- The dedup bookkeeping invariant tying the collection to the key sets:
every decodable key of a stored record is registered, and no two records
share a decodable key. -/
def KeysInv (st : RunState) : Prop :=
  (∀ q ∈ st.puzzles, ∀ k, recGridKey q = some k → k ∈ st.seenGrids) ∧
  (∀ q ∈ st.puzzles, ∀ k, recSolKey q = some k → k ∈ st.seenSols) ∧
  DistinctKeys st.puzzles

/-- How one phase of the generation run relates its final state to its
initial state: records are only appended, appended records carry
consecutive fresh ids and store a board together with the solver's own
path for it, the key sets only grow, and the dedup invariant is
preserved. -/
def RunExtends (st st' : RunState) : Prop :=
  ∃ new : List RawRecord,
    st'.puzzles = st.puzzles ++ new ∧
    st'.nextId = st.nextId + new.length ∧
    (new.map fun q => q.id) =
      (List.range new.length).map (fun j : Nat => some (st.nextId + (j : Int))) ∧
    (∀ q ∈ new, ∃ g p, q.grid = JsonGrid.arr g ∧ solveZipDFS g = some p ∧
      q.solutionPath = JsonPath.str (solutionPathToString (intPath p))) ∧
    (∀ k ∈ st.seenGrids, k ∈ st'.seenGrids) ∧
    (∀ k ∈ st.seenSols, k ∈ st'.seenSols) ∧
    (KeysInv st → KeysInv st')

/-- The invariant of the DFS search state: the path is a nonempty chain of
pairwise-distinct in-bounds cells ending at the current cell, whose
non-zero values read in order are exactly `1, …, nextReq − 1`. -/
structure DfsInv (g : Grid) (K : Nat) (path : List Coord) (r c nextReq : Nat) : Prop where
  last_eq : path.getLast? = some (r, c)
  nodup : path.Nodup
  chain : path.Chain' isAdjacent
  bounds : ∀ q ∈ path, q.1 < g.length ∧ q.2 < g.length
  vals : (pathVals g path).filter (· != 0) = List.range' 1 (nextReq - 1)
  lo : 2 ≤ nextReq
  hi : nextReq ≤ K + 1

/-! ## Claim C2: prune soundness / solver completeness (refuted) -/

/-- C2.  The claim asserts that the two prunes never reject a search state
from which a valid completion exists (and hence that the solver is
complete).  This is false: on `pruneCexGrid` a valid covering path exists
(`pruneCexPath` satisfies every movement and ordering rule), yet
`walkableUnvisitedConnected` treats the not-yet-due checkpoints 3 and 4 as
walls, sees two walkable components at the root state, and `solveZipDFS`
returns `null`.  The code's own comment ("If the currently-walkable
unvisited cells are split into multiple components, it's impossible") and
the spec's no-false-negative requirement are thereby contradicted by the
code. -/
theorem solver_incomplete_on_pruneCexGrid :
    ValidCover pruneCexGrid 4 pruneCexPath ∧ solveZipDFS pruneCexGrid = none := by
  constructor <;> decide

/-! ## Claim C6: contiguity rejection -/

/-- C6.  A board whose sorted non-zero values are not `[1, …, K]` for any
`K ≥ 1` (gap, duplicate, missing 1, or no non-zero value at all) makes
`solveZipDFS` return `none` — the same outcome as for a structurally valid
but geometrically unsolvable board. -/
theorem solveZipDFS_rejects_noncontiguous (g : Grid)
    (h : ∀ K, 1 ≤ K →
      List.insertionSort (· ≤ ·) (nonzeroVals g) ≠ List.range' 1 K) :
    solveZipDFS g = none := by
  unfold solveZipDFS
  cases hreq : List.insertionSort (· ≤ ·) (nonzeroVals g) with
  | nil => simp
  | cons a l =>
    have hne : a :: l ≠ List.range' 1 (l.length + 1) := by
      have := h (a :: l).length (by simp)
      rw [hreq] at this
      simpa using this
    by_cases hh : a = 1
    · subst hh
      simp only [List.head?_cons]
      simp
      intro hcontra
      exact absurd hcontra hne
    · simp [hh]

/-- Witness for C6 at the board with non-zero values `{1, 3}` (the spec's
own example, K intended 2 but contiguity broken). -/
theorem solveZipDFS_rejects_noncontiguous_witness :
    (∀ K, 1 ≤ K →
      List.insertionSort (· ≤ ·) (nonzeroVals [[1, 0], [0, 3]]) ≠ List.range' 1 K) ∧
    solveZipDFS [[1, 0], [0, 3]] = none := by
  have hsort : List.insertionSort (· ≤ ·) (nonzeroVals [[1, 0], [0, 3]]) = [1, 3] := by
    decide
  have hh : ∀ K, 1 ≤ K →
      List.insertionSort (· ≤ ·) (nonzeroVals [[1, 0], [0, 3]]) ≠ List.range' 1 K := by
    intro K hK heq
    rw [hsort] at heq
    have hlen : K = 2 := by
      have := congrArg List.length heq
      simpa using this.symm
    subst hlen
    exact absurd heq (by decide)
  exact ⟨hh, solveZipDFS_rejects_noncontiguous _ hh⟩

/-! ## Claim C9: load tolerance -/

/-- C9.  A missing file, blank content, or content whose parse fails all
load as the empty collection, and the generation run on such a document is
exactly the run on an empty collection (`safeReadJson` is total — the JS
`catch` turns the parse error into a warning, so no error escapes the load
step). -/
theorem safeReadJson_tolerant :
    safeReadJson .missing = none ∧
    (∀ s parsed, isBlank s = true → safeReadJson (.raw s parsed) = none) ∧
    (∀ s, safeReadJson (.raw s none) = none) ∧
    (∀ fs args f, safeReadJson fs = none →
      loadExisting fs = [] ∧ mainRunFile args fs f = mainRun args [] f) := by
  refine ⟨rfl, ?_, ?_, ?_⟩
  · intro s parsed hb
    simp [safeReadJson, hb]
  · intro s
    show (if isBlank s = true then (none : Option (Option (List RawRecord))) else none) = none
    exact ite_self none
  · intro fs args f h
    have hload : loadExisting fs = [] := by
      unfold loadExisting
      rw [h]
    exact ⟨hload, by unfold mainRunFile; rw [hload]⟩

/-- Witness for C9: a blank document, a corrupt document and the run on the
corrupt document. -/
theorem safeReadJson_tolerant_witness :
    safeReadJson .missing = none ∧
    (isBlank [' ', '\n'] = true ∧ safeReadJson (.raw [' ', '\n'] (some (some dupExisting))) = none) ∧
    safeReadJson (.raw ['x'] none) = none ∧
    (safeReadJson (.raw ['x'] none) = none ∧
      loadExisting (.raw ['x'] none) = [] ∧
      mainRunFile oneOf2Args (.raw ['x'] none) tfRNG = mainRun oneOf2Args [] tfRNG) := by
  have hcorrupt : safeReadJson (.raw ['x'] none) = none :=
    safeReadJson_tolerant.2.2.1 ['x']
  refine ⟨safeReadJson_tolerant.1,
    ⟨by decide, safeReadJson_tolerant.2.1 _ _ (by decide)⟩,
    hcorrupt,
    hcorrupt, safeReadJson_tolerant.2.2.2 _ oneOf2Args tfRNG hcorrupt⟩

/-! ## Claim C10: path serialization round-trip -/

theorem digitChar_props {d : Nat} (h : d < 10) :
    digitVal (digitChar d) = some d ∧ isSpaceChar (digitChar d) = false ∧
    digitChar d ≠ '-' ∧ digitChar d ≠ ',' ∧ digitChar d ≠ ';' := by
  interval_cases d <;> exact ⟨by decide, by decide, by decide, by decide, by decide⟩

theorem natCharsAux_succ (fuel m : Nat) :
    natCharsAux (fuel + 1) m =
      if m < 10 then [digitChar m]
      else natCharsAux fuel (m / 10) ++ [digitChar (m % 10)] := rfl

theorem natCharsAux_stable : ∀ m fuel, m < fuel → natCharsAux fuel m = natChars m := by
  intro m
  induction m using Nat.strong_induction_on with
  | _ m ih =>
    intro fuel hf
    match fuel, hf with
    | fuel + 1, _ =>
      unfold natChars
      rw [natCharsAux_succ, natCharsAux_succ]
      by_cases h10 : m < 10
      · simp [h10]
      · have hdiv : m / 10 < m := Nat.div_lt_self (by omega) (by omega)
        rw [if_neg h10, if_neg h10,
          ih (m / 10) hdiv fuel (by omega), ih (m / 10) hdiv m (by omega)]

theorem natChars_big {m : Nat} (h : ¬ m < 10) :
    natChars m = natChars (m / 10) ++ [digitChar (m % 10)] := by
  have hdiv : m / 10 < m := Nat.div_lt_self (by omega) (by omega)
  unfold natChars
  rw [natCharsAux_succ, if_neg h, natCharsAux_stable (m / 10) m (by omega)]
  rfl

theorem natChars_small {m : Nat} (h : m < 10) : natChars m = [digitChar m] := by
  unfold natChars
  rw [natCharsAux_succ, if_pos h]

theorem natChars_digits : ∀ m : Nat, ∀ c ∈ natChars m, ∃ d, d < 10 ∧ c = digitChar d := by
  intro m
  induction m using Nat.strong_induction_on with
  | _ m ih =>
    intro c hc
    by_cases h10 : m < 10
    · rw [natChars_small h10] at hc
      simp at hc
      exact ⟨m, h10, hc⟩
    · rw [natChars_big h10] at hc
      rcases List.mem_append.mp hc with h | h
      · exact ih (m / 10) (Nat.div_lt_self (by omega) (by omega)) c h
      · simp at h
        exact ⟨m % 10, Nat.mod_lt _ (by omega), h⟩

theorem natChars_ne_nil (m : Nat) : natChars m ≠ [] := by
  by_cases h10 : m < 10
  · rw [natChars_small h10]; simp
  · rw [natChars_big h10]; simp

theorem parseDigitsAux_append (xs ys : List Char) :
    ∀ acc, parseDigitsAux acc (xs ++ ys) =
      match parseDigitsAux acc xs with
      | some a => parseDigitsAux a ys
      | none => none := by
  induction xs with
  | nil => intro acc; rfl
  | cons c xs ih =>
    intro acc
    cases hd : digitVal c with
    | none => simp only [List.cons_append, parseDigitsAux, hd]
    | some d =>
      simp only [List.cons_append, parseDigitsAux, hd]
      exact ih (acc * 10 + d)

theorem parseDigitsAux_natChars : ∀ m acc,
    parseDigitsAux acc (natChars m) = some (acc * 10 ^ (natChars m).length + m) := by
  intro m
  induction m using Nat.strong_induction_on with
  | _ m ih =>
    intro acc
    by_cases h10 : m < 10
    · rw [natChars_small h10]
      show parseDigitsAux acc [digitChar m] = some (acc * 10 ^ 1 + m)
      unfold parseDigitsAux
      rw [(digitChar_props h10).1]
      show some (acc * 10 + m) = some (acc * 10 ^ 1 + m)
      norm_num
    · have hdiv : m / 10 < m := Nat.div_lt_self (by omega) (by omega)
      rw [natChars_big h10, parseDigitsAux_append, ih (m / 10) hdiv acc]
      show parseDigitsAux (acc * 10 ^ (natChars (m / 10)).length + m / 10)
        [digitChar (m % 10)] = _
      unfold parseDigitsAux
      rw [(digitChar_props (Nat.mod_lt _ (by omega))).1]
      show some ((acc * 10 ^ (natChars (m / 10)).length + m / 10) * 10 + m % 10) = _
      have hlen : (natChars (m / 10) ++ [digitChar (m % 10)]).length
          = (natChars (m / 10)).length + 1 := by simp
      rw [hlen]
      congr 1
      have := Nat.div_add_mod m 10
      ring_nf
      omega

theorem isBlank_cons_false {c : Char} {l : JStr} (h : isSpaceChar c = false) :
    isBlank (c :: l) = false := by
  unfold isBlank
  simp [h]

theorem natChars_head_shape (m : Nat) :
    ∃ d rest, d < 10 ∧ natChars m = digitChar d :: rest := by
  by_cases h10 : m < 10
  · exact ⟨m, [], h10, natChars_small h10⟩
  · rw [natChars_big h10]
    rcases hsh : natChars (m / 10) with _ | ⟨c, rest⟩
    · exact absurd hsh (natChars_ne_nil _)
    · obtain ⟨d, hd, hc⟩ := natChars_digits (m / 10) c (by rw [hsh]; simp)
      exact ⟨d, rest ++ [digitChar (m % 10)], hd, by rw [hc]; simp⟩

theorem jsNumber_natChars (m : Nat) : jsNumber (natChars m) = some (m : Int) := by
  obtain ⟨d, rest, hd, hsh⟩ := natChars_head_shape m
  have hblank : isBlank (natChars m) = false := by
    rw [hsh]; exact isBlank_cons_false (digitChar_props hd).2.1
  unfold jsNumber
  rw [hblank, if_neg (by decide : ¬ (false = true))]
  have hparse := parseDigitsAux_natChars m 0
  simp only [Nat.zero_mul, Nat.zero_add] at hparse
  split
  · next heq =>
    rw [hsh] at heq
    have : digitChar d = '-' := by injection heq
    exact absurd this (digitChar_props hd).2.2.1
  · rw [hparse]
    rfl

theorem intChars_chars (i : Int) :
    ∀ c ∈ intChars i, c = '-' ∨ ∃ d, d < 10 ∧ c = digitChar d := by
  intro c hc
  unfold intChars at hc
  split at hc
  · rcases List.mem_cons.mp hc with h | h
    · exact Or.inl h
    · exact Or.inr (natChars_digits _ c h)
  · exact Or.inr (natChars_digits _ c hc)

theorem jsNumber_intChars (i : Int) : jsNumber (intChars i) = some i := by
  unfold intChars
  split
  · next hneg =>
    rcases hsh : natChars i.natAbs with _ | ⟨c, rest⟩
    · exact absurd hsh (natChars_ne_nil _)
    · unfold jsNumber
      rw [isBlank_cons_false (by decide)]
      simp only [Bool.false_eq_true, if_false, hsh]
      have hrest : (c :: rest).isEmpty = false := rfl
      rw [hrest]
      simp only [Bool.false_eq_true, if_false]
      have hparse := parseDigitsAux_natChars i.natAbs 0
      simp only [Nat.zero_mul, Nat.zero_add, hsh] at hparse
      rw [hparse]
      show some (-(i.natAbs : Int)) = some i
      congr 1
      omega
  · next hpos =>
    rw [jsNumber_natChars]
    congr 1
    omega

theorem splitOnChar_no_sep {sep : Char} : ∀ {s : JStr}, sep ∉ s → splitOnChar sep s = [s] := by
  intro s
  induction s with
  | nil => intro _; rfl
  | cons c rest ih =>
    intro h
    have hc : ¬ c = sep := fun hcs => h (hcs ▸ List.mem_cons_self c rest)
    have hrest : sep ∉ rest := fun hm => h (List.mem_cons_of_mem c hm)
    unfold splitOnChar
    rw [if_neg hc, ih hrest]

theorem splitOnChar_append {sep : Char} : ∀ {a : JStr} (b : JStr), sep ∉ a →
    splitOnChar sep (a ++ sep :: b) = a :: splitOnChar sep b := by
  intro a
  induction a with
  | nil =>
    intro b _
    show splitOnChar sep (sep :: b) = [] :: splitOnChar sep b
    simp [splitOnChar]

  | cons c a' ih =>
    intro b h
    have hc : ¬ c = sep := fun hcs => h (hcs ▸ List.mem_cons_self c a')
    have ha' : sep ∉ a' := fun hm => h (List.mem_cons_of_mem c hm)
    show splitOnChar sep (c :: (a' ++ sep :: b)) = (c :: a') :: splitOnChar sep b
    simp only [splitOnChar]
    rw [if_neg hc, ih b ha']

theorem comma_not_mem_intChars (i : Int) : ',' ∉ intChars i := by
  intro hm
  rcases intChars_chars i ',' hm with h | ⟨d, hd, h⟩
  · exact absurd h (by decide)
  · exact absurd h.symm (digitChar_props hd).2.2.2.1

theorem semi_not_mem_intChars (i : Int) : ';' ∉ intChars i := by
  intro hm
  rcases intChars_chars i ';' hm with h | ⟨d, hd, h⟩
  · exact absurd h (by decide)
  · exact absurd h.symm (digitChar_props hd).2.2.2.2

/-- The per-pair piece of the serialized path. -/
theorem parseCoordPiece_pair (r c : Int) :
    parseCoordPiece (intChars r ++ ',' :: intChars c) = some (r, c) := by
  unfold parseCoordPiece
  rw [splitOnChar_append (intChars c) (comma_not_mem_intChars r),
    splitOnChar_no_sep (comma_not_mem_intChars c)]
  show (match jsNumber (intChars r), jsNumber (intChars c) with
    | some rv, some cv => some (rv, cv)
    | _, _ => none) = some (r, c)
  rw [jsNumber_intChars, jsNumber_intChars]

theorem semi_not_mem_piece (q : Int × Int) :
    ';' ∉ intChars q.1 ++ ',' :: intChars q.2 := by
  intro hm
  rcases List.mem_append.mp hm with h | h
  · exact semi_not_mem_intChars _ h
  · rcases List.mem_cons.mp h with h | h
    · exact absurd h (by decide)
    · exact semi_not_mem_intChars _ h

theorem splitOnChar_joinSep_pieces :
    ∀ p : List (Int × Int), p ≠ [] →
      splitOnChar ';' (joinSep ';' (p.map fun q => intChars q.1 ++ ',' :: intChars q.2)) =
        p.map fun q => intChars q.1 ++ ',' :: intChars q.2 := by
  intro p
  induction p with
  | nil => intro h; exact absurd rfl h
  | cons q rest ih =>
    intro _
    cases hr : rest with
    | nil =>
      show splitOnChar ';' (joinSep ';' [intChars q.1 ++ ',' :: intChars q.2]) = _
      rw [show joinSep ';' [intChars q.1 ++ ',' :: intChars q.2] =
        intChars q.1 ++ ',' :: intChars q.2 from rfl]
      rw [splitOnChar_no_sep (semi_not_mem_piece q)]
      rfl
    | cons q2 rest2 =>
      have hjoin : joinSep ';' ((q :: q2 :: rest2).map fun x => intChars x.1 ++ ',' :: intChars x.2)
          = (intChars q.1 ++ ',' :: intChars q.2) ++
            ';' :: joinSep ';' ((q2 :: rest2).map fun x => intChars x.1 ++ ',' :: intChars x.2) := rfl
      rw [hjoin, splitOnChar_append _ (semi_not_mem_piece q)]
      rw [hr] at ih
      rw [ih (by simp)]
      rfl

theorem parsePathPieces_map : ∀ p : List (Int × Int),
    parsePathPieces (p.map fun q => intChars q.1 ++ ',' :: intChars q.2) = some p := by
  intro p
  induction p with
  | nil => rfl
  | cons q rest ih =>
    show parsePathPieces ((intChars q.1 ++ ',' :: intChars q.2) :: _) = _
    unfold parsePathPieces
    rw [parseCoordPiece_pair, ih]
    rfl

/-- Round-trip of the compact path format on non-empty paths. -/
theorem stringToSolutionPath_roundTrip (p : List (Int × Int)) (hp : p ≠ []) :
    stringToSolutionPath (solutionPathToString p) = some p := by
  obtain ⟨q, rest, rfl⟩ : ∃ q rest, p = q :: rest := by
    cases p with
    | nil => exact absurd rfl hp
    | cons q rest => exact ⟨q, rest, rfl⟩
  have hhead : ∃ ch t1, intChars q.1 = ch :: t1 ∧ isSpaceChar ch = false := by
    unfold intChars
    split
    · exact ⟨'-', natChars q.1.natAbs, rfl, by decide⟩
    · obtain ⟨d, r1, hd, hsh⟩ := natChars_head_shape q.1.toNat
      exact ⟨digitChar d, r1, hsh, (digitChar_props hd).2.1⟩
  have hfirst : ∃ t0, solutionPathToString (q :: rest) = intChars q.1 ++ t0 := by
    unfold solutionPathToString
    cases rest with
    | nil => exact ⟨',' :: intChars q.2, by simp [joinSep]⟩
    | cons q2 r2 =>
      refine ⟨',' :: intChars q.2 ++ ';' ::
        joinSep ';' ((q2 :: r2).map fun x => intChars x.1 ++ ',' :: intChars x.2), ?_⟩
      simp [joinSep, List.map_cons]
  have hblank : isBlank (solutionPathToString (q :: rest)) = false := by
    obtain ⟨ch, t1, hch, hsp⟩ := hhead
    obtain ⟨t0, ht0⟩ := hfirst
    rw [ht0, hch]
    simp only [List.cons_append]
    exact isBlank_cons_false hsp
  unfold stringToSolutionPath
  rw [hblank, if_neg (by decide : ¬ (false = true))]
  unfold solutionPathToString
  rw [splitOnChar_joinSep_pieces (q :: rest) (by simp), parsePathPieces_map]

/-- C10.  Serializing a non-empty path and parsing it back returns the same
path; the empty path serializes to the empty string, on which the parser
returns `null` (not the empty path). -/
theorem pathString_roundTrip :
    (∀ p : List (Int × Int), p ≠ [] →
      stringToSolutionPath (solutionPathToString p) = some p) ∧
    solutionPathToString [] = [] ∧
    stringToSolutionPath (solutionPathToString []) = none :=
  ⟨stringToSolutionPath_roundTrip, rfl, rfl⟩

/-- Witness for C10 at the two-step path `[(0,0), (1,2)]`. -/
theorem pathString_roundTrip_witness :
    stringToSolutionPath (solutionPathToString [((0 : Int), (0 : Int)), (1, 2)]) =
      some [(0, 0), (1, 2)] :=
  pathString_roundTrip.1 [(0, 0), (1, 2)] (by decide)

/-! ## Claim C1: solver soundness -/

theorem range'_one_concat : ∀ s n : Nat, List.range' s (n + 1) = List.range' s n ++ [s + n] := by
  intro s n
  induction n generalizing s with
  | zero => rfl
  | succ n ih =>
    show s :: List.range' (s + 1) (n + 1) = (s :: List.range' (s + 1) n) ++ [s + (n + 1)]
    rw [ih (s + 1)]
    simp
    omega

theorem mem_allCells {n : Nat} {q : Coord} : q ∈ allCells n ↔ q.1 < n ∧ q.2 < n := by
  cases q with
  | mk a b =>
    unfold allCells
    simp only [List.mem_flatMap, List.mem_map, List.mem_range]
    constructor
    · rintro ⟨r, hr, c, hc, heq⟩
      cases heq
      exact ⟨hr, hc⟩
    · rintro ⟨ha, hb⟩
      exact ⟨a, ha, b, hb, rfl⟩

theorem nodup_allCells (n : Nat) : (allCells n).Nodup := by
  have h : allCells n = (List.range n).product (List.range n) := rfl
  rw [h]
  exact (List.nodup_range n).product (List.nodup_range n)

theorem mem_neighbors4 {n r c : Nat} (hr : r < n) (hc : c < n) :
    ∀ q ∈ neighbors4 n r c, q.1 < n ∧ q.2 < n ∧ isAdjacent (r, c) q := by
  intro q hq
  unfold neighbors4 at hq
  simp only [List.mem_append, List.mem_ite_nil_right, List.mem_singleton] at hq
  rcases hq with ((⟨h0, heq⟩ | ⟨h0, heq⟩) | ⟨h0, heq⟩) | ⟨h0, heq⟩ <;> subst heq
  · exact ⟨by omega, hc, Or.inr ⟨rfl, Or.inr (by omega)⟩⟩
  · exact ⟨by omega, hc, Or.inr ⟨rfl, Or.inl rfl⟩⟩
  · exact ⟨hr, by omega, Or.inl ⟨rfl, Or.inr (by omega)⟩⟩
  · exact ⟨hr, by omega, Or.inl ⟨rfl, Or.inl rfl⟩⟩

theorem canStandOn_cases {g : Grid} {path : List Coord} {r c : Nat} {needed : Option Nat}
    (h : canStandOn g path r c needed = true) :
    (r, c) ∉ path ∧
      (cellVal g r c = 0 ∨ needed = none ∨ needed = some (cellVal g r c)) := by
  unfold canStandOn visitedIn isForbiddenCell at h
  simp only [Bool.and_eq_true, Bool.not_eq_true'] at h
  obtain ⟨hv, hf⟩ := h
  refine ⟨by simpa using hv, ?_⟩
  rcases needed with _ | m
  · exact Or.inr (Or.inl rfl)
  · by_cases h0 : cellVal g r c = 0
    · exact Or.inl h0
    · right; right
      have hb : (cellVal g r c != 0) = true := by simpa [bne_iff_ne] using h0
      simp only [hb, Option.isSome_some, Bool.true_and, Bool.and_true] at hf
      have : some m = some (cellVal g r c) := by
        simpa [bne_eq_false_iff_eq] using hf
      rw [this]

theorem mem_nonzeroVals {g : Grid} {q : Coord} (hq1 : q.1 < g.length) (hq2 : q.2 < g.length)
    (hv : cellVal g q.1 q.2 ≠ 0) : cellVal g q.1 q.2 ∈ nonzeroVals g := by
  unfold nonzeroVals
  rw [List.mem_filter]
  refine ⟨List.mem_map.mpr ⟨q, mem_allCells.mpr ⟨hq1, hq2⟩, rfl⟩, by simpa using hv⟩

theorem nonzeroVals_le_K {g : Grid} {K : Nat}
    (hvals : List.insertionSort (· ≤ ·) (nonzeroVals g) = List.range' 1 K) :
    ∀ v ∈ nonzeroVals g, 1 ≤ v ∧ v ≤ K := by
  intro v hv
  have hperm : (nonzeroVals g).Perm (List.range' 1 K) := by
    rw [← hvals]
    exact (List.perm_insertionSort _ _).symm
  have : v ∈ List.range' 1 K := hperm.mem_iff.mp hv
  rw [List.mem_range'] at this
  omega

theorem nonzeroVals_nodup {g : Grid} {K : Nat}
    (hvals : List.insertionSort (· ≤ ·) (nonzeroVals g) = List.range' 1 K) :
    (nonzeroVals g).Nodup := by
  have hperm : (nonzeroVals g).Perm (List.range' 1 K) := by
    rw [← hvals]
    exact (List.perm_insertionSort _ _).symm
  exact hperm.symm.nodup (List.nodup_range' ..)

/-- Each value occurs on at most one in-bounds cell of a board whose
non-zero values are exactly `1..K`. -/
theorem value_cell_unique {g : Grid} {K : Nat}
    (hvals : List.insertionSort (· ≤ ·) (nonzeroVals g) = List.range' 1 K)
    {q q' : Coord} (hq : q.1 < g.length ∧ q.2 < g.length)
    (hq' : q'.1 < g.length ∧ q'.2 < g.length) (hne : q ≠ q')
    (heq : cellVal g q.1 q.2 = cellVal g q'.1 q'.2)
    (h0 : cellVal g q.1 q.2 ≠ 0) : False := by
  have hmemq : q ∈ allCells g.length := mem_allCells.mpr hq
  have hmemq' : q' ∈ allCells g.length := mem_allCells.mpr hq'
  have hperm1 := List.perm_cons_erase hmemq
  have hmemq'e := List.mem_of_ne_of_mem (Ne.symm hne) (hperm1.mem_iff.mp hmemq')
  have hperm2 := List.perm_cons_erase hmemq'e
  have h1 := hperm1.map fun x => cellVal g x.1 x.2
  have h2 := hperm2.map fun x => cellVal g x.1 x.2
  rw [List.map_cons] at h1 h2
  rw [← heq] at h2
  have h3 := h1.trans (h2.cons (cellVal g q.1 q.2))
  have hb : ((cellVal g q.1 q.2) != 0) = true := by simpa [bne_iff_ne] using h0
  have h4 := h3.filter (· != 0)
  simp only [List.filter_cons, hb, if_true] at h4
  have h6 := h4.nodup_iff.mp (nonzeroVals_nodup hvals)
  have h7 := (List.nodup_cons.mp h6).1
  exact h7 (List.mem_cons_self _ _)

theorem mem_of_getLast?_eq_some {l : List Coord} {a : Coord} (h : l.getLast? = some a) :
    a ∈ l := by
  obtain ⟨hne, rfl⟩ := List.mem_getLast?_eq_getLast (l := l) (x := a) (by simp [h])
  exact List.getLast_mem hne

/-- Soundness of the DFS: any returned path extends the current one and is a
full valid cover. -/
theorem dfs_sound (g : Grid) (K : Nat)
    (hvals : List.insertionSort (· ≤ ·) (nonzeroVals g) = List.range' 1 K) :
    ∀ fuel path r c nextReq p,
      DfsInv g K path r c nextReq →
      dfs g g.length K fuel path r c nextReq = some p →
      path <+: p ∧ p.length = g.length * g.length ∧ p.Nodup ∧ p.Chain' isAdjacent ∧
      (∀ q ∈ p, q.1 < g.length ∧ q.2 < g.length) ∧
      (pathVals g p).filter (· != 0) = List.range' 1 K ∧
      (p.getLast?.map fun q => cellVal g q.1 q.2) = some K := by
  intro fuel
  induction fuel with
  | zero =>
    intro path r c nextReq p _ h
    exact absurd h (by simp [dfs])
  | succ fuel ih =>
    intro path r c nextReq p inv h
    simp only [dfs] at h
    by_cases hlen : (path.length == g.length * g.length) = true
    · rw [if_pos hlen] at h
      by_cases hacc : (nextReq == K + 1 && cellVal g r c == K) = true
      · rw [if_pos hacc] at h
        injection h with h
        subst h
        have hacc' : nextReq = K + 1 ∧ cellVal g r c = K := by simpa using hacc
        obtain ⟨hnr', hcell'⟩ := hacc'
        refine ⟨List.prefix_rfl, by simpa using hlen, inv.nodup, inv.chain, inv.bounds, ?_, ?_⟩
        · rw [inv.vals, hnr']
          simp
        · rw [inv.last_eq]
          simp [hcell']
      · rw [if_neg hacc] at h
        exact absurd h (by simp)
    · rw [if_neg hlen] at h
      by_cases hp1 : (!reachableToNeeded g g.length path r c
          (if nextReq ≤ K then some nextReq else none)) = true
      · rw [if_pos hp1] at h
        exact absurd h (by simp)
      · rw [if_neg hp1] at h
        by_cases hp2 : (!walkableUnvisitedConnected g g.length path
            (if nextReq ≤ K then some nextReq else none)) = true
        · rw [if_pos hp2] at h
          exact absurd h (by simp)
        · rw [if_neg hp2] at h
          obtain ⟨qn, hqmem, hqn⟩ := List.exists_of_findSome?_eq_some h
          have hqcand : qn ∈ (neighbors4 g.length r c).filter
              fun q => canStandOn g path q.1 q.2
                (if nextReq ≤ K then some nextReq else none) :=
            (List.perm_insertionSort _ _).mem_iff.mp hqmem
          rw [List.mem_filter] at hqcand
          obtain ⟨hqnbr, hqstand⟩ := hqcand
          have hrc_mem : (r, c) ∈ path := mem_of_getLast?_eq_some inv.last_eq
          obtain ⟨hrb, hcb⟩ := inv.bounds (r, c) hrc_mem
          obtain ⟨hq1, hq2, hadj⟩ := mem_neighbors4 hrb hcb qn hqnbr
          obtain ⟨hqnot, hqval⟩ := canStandOn_cases hqstand
          have hlast' : (path ++ [qn]).getLast? = some (qn.1, qn.2) := by
            rw [List.getLast?_concat]
          have hnodup' : (path ++ [qn]).Nodup := by
            rw [List.nodup_append]
            refine ⟨inv.nodup, List.nodup_singleton _, ?_⟩
            intro a ha hb
            rw [List.mem_singleton] at hb
            subst hb
            exact hqnot ha
          have hchain' : (path ++ [qn]).Chain' isAdjacent := by
            rw [List.chain'_append]
            refine ⟨inv.chain, List.chain'_singleton _, ?_⟩
            intro x hx y hy
            have hx' : (r, c) = x := by
              rw [inv.last_eq] at hx
              simpa using hx
            have hy' : qn = y := by simpa using hy
            rw [← hx', ← hy']
            exact hadj
          have hbounds' : ∀ q ∈ path ++ [qn], q.1 < g.length ∧ q.2 < g.length := by
            intro q hq
            rcases List.mem_append.mp hq with hq | hq
            · exact inv.bounds q hq
            · rw [List.mem_singleton] at hq
              subst hq
              exact ⟨hq1, hq2⟩
          have hpv : pathVals g (path ++ [qn]) = pathVals g path ++ [cellVal g qn.1 qn.2] := by
            unfold pathVals
            simp
          by_cases hv0 : cellVal g qn.1 qn.2 = 0
          · have hnn : newNextReq g qn.1 qn.2 nextReq
                (if nextReq ≤ K then some nextReq else none) = nextReq := by
              unfold newNextReq
              simp [hv0]
            rw [hnn] at hqn
            have inv' : DfsInv g K (path ++ [qn]) qn.1 qn.2 nextReq := by
              refine ⟨hlast', hnodup', hchain', hbounds', ?_, inv.lo, inv.hi⟩
              rw [hpv, List.filter_append, inv.vals]
              simp [hv0]
            obtain ⟨hpre, rest⟩ := ih (path ++ [qn]) qn.1 qn.2 nextReq p inv' hqn
            exact ⟨(List.prefix_append path [qn]).trans hpre, rest⟩
          · by_cases hK : nextReq ≤ K
            · rw [if_pos hK] at hqval hqn
              rcases hqval with h0 | hnone | hsome
              · exact absurd h0 hv0
              · exact absurd hnone (by simp)
              · have hveq : cellVal g qn.1 qn.2 = nextReq := by
                  injection hsome with hh
                  exact hh.symm
                have hb2 : (nextReq != 0) = true := by
                  have := inv.lo
                  simp [bne_iff_ne]
                  omega
                have hnn : newNextReq g qn.1 qn.2 nextReq (some nextReq) = nextReq + 1 := by
                  unfold newNextReq
                  rw [hveq]
                  simp [hb2]
                rw [hnn] at hqn
                have inv' : DfsInv g K (path ++ [qn]) qn.1 qn.2 (nextReq + 1) := by
                  refine ⟨hlast', hnodup', hchain', hbounds', ?_, by omega, by omega⟩
                  rw [hpv, List.filter_append, inv.vals]
                  have hstep : (nextReq + 1) - 1 = (nextReq - 1) + 1 := by omega
                  rw [hstep, range'_one_concat]
                  have hval1 : 1 + (nextReq - 1) = nextReq := by
                    have := inv.lo
                    omega
                  rw [hval1]
                  simp [hveq, hb2]
                obtain ⟨hpre, rest⟩ := ih (path ++ [qn]) qn.1 qn.2 (nextReq + 1) p inv' hqn
                exact ⟨(List.prefix_append path [qn]).trans hpre, rest⟩
            · have hKeq : nextReq = K + 1 := by
                have := inv.hi
                omega
              have hvmem := mem_nonzeroVals hq1 hq2 hv0
              obtain ⟨hv1, hvK⟩ := nonzeroVals_le_K hvals _ hvmem
              have hvfilter : cellVal g qn.1 qn.2 ∈ (pathVals g path).filter (· != 0) := by
                rw [inv.vals, hKeq]
                simp only [Nat.add_sub_cancel]
                rw [List.mem_range'_1]
                omega
              have hvpath : cellVal g qn.1 qn.2 ∈ pathVals g path :=
                (List.mem_filter.mp hvfilter).1
              obtain ⟨q', hq'mem, hq'eq⟩ := List.mem_map.mp hvpath
              have hqne : qn ≠ q' := fun hh => hqnot (hh ▸ hq'mem)
              exact (value_cell_unique hvals ⟨hq1, hq2⟩ (inv.bounds q' hq'mem) hqne
                hq'eq.symm hv0).elim

/-- C1.  Solver soundness: whenever `solveZipDFS` returns a path on an
`n × n` board whose non-zero values are exactly `{1..K}`, that path is a
valid cover — `n²` pairwise-distinct in-bounds coordinates, consecutive
coordinates orthogonally adjacent, the non-zero values along it exactly
`1..K` in order, the first coordinate holding `1` and the last holding
`K`. -/
theorem solveZipDFS_sound (g : Grid) (K : Nat) (hsq : squareGrid g)
    (hvals : List.insertionSort (· ≤ ·) (nonzeroVals g) = List.range' 1 K)
    (p : List Coord) (h : solveZipDFS g = some p) :
    ValidCover g K p := by
  simp only [solveZipDFS] at h
  rw [hvals] at h
  by_cases hK0 : K = 0
  · rw [hK0] at h
    simp at h
  · obtain ⟨K', rfl⟩ : ∃ K', K = K' + 1 := ⟨K - 1, by omega⟩
    rw [if_neg (by simp [List.length_range'])] at h
    rw [if_neg (by
      have e2 : List.range' 1 (K' + 1) = 1 :: List.range' 2 K' := rfl
      rw [e2]
      simp)] at h
    rw [if_neg (by simp [List.length_range'])] at h
    rw [if_neg (by
      intro hany
      rw [List.any_eq_true] at hany
      obtain ⟨v, hv, hdec⟩ := hany
      have hle := (nonzeroVals_le_K hvals v hv).2
      rw [List.length_range'] at hdec
      simp at hdec
      omega)] at h
    cases hpos : posOf g 1 with
    | none =>
      rw [hpos] at h
      simp at h
    | some s =>
      rw [hpos] at h
      have hcell1 : cellVal g s.1 s.2 = 1 := by
        have := List.find?_some hpos
        simpa using this
      have hsmem : s ∈ allCells g.length := List.mem_of_find?_eq_some hpos
      have hsb := mem_allCells.mp hsmem
      rw [List.length_range'] at h
      have inv : DfsInv g (K' + 1) [s] s.1 s.2 2 := by
        refine ⟨rfl, List.nodup_singleton _, List.chain'_singleton _, ?_, ?_, le_refl _, by omega⟩
        · intro q hq
          rw [List.mem_singleton] at hq
          subst hq
          exact hsb
        · unfold pathVals
          simp [hcell1]
      obtain ⟨hpre, hplen, hpnodup, hpchain, hpbounds, hpvals, hplast⟩ :=
        dfs_sound g (K' + 1) hvals (g.length * g.length) [s] s.1 s.2 2 p inv h
      obtain ⟨t, ht⟩ := hpre
      have hp : p = s :: t := by
        rw [← ht]
        rfl
      refine ⟨hplen, hpnodup, hpchain, hpbounds, hpvals, ?_, hplast⟩
      rw [hp]
      simp [hcell1]

/-- Witness for C1 at the board `[[1,2],[4,3]]` (K = 4), on which the
solver returns the path `[(0,0),(0,1),(1,1),(1,0)]`. -/
theorem solveZipDFS_sound_witness :
    (squareGrid [[1, 2], [4, 3]] ∧
      List.insertionSort (· ≤ ·) (nonzeroVals [[1, 2], [4, 3]]) = List.range' 1 4 ∧
      solveZipDFS [[1, 2], [4, 3]] = some [(0, 0), (0, 1), (1, 1), (1, 0)]) ∧
    ValidCover [[1, 2], [4, 3]] 4 [(0, 0), (0, 1), (1, 1), (1, 0)] := by
  have h1 : squareGrid [[1, 2], [4, 3]] := by
    intro row hr
    simp at hr
    rcases hr with rfl | rfl <;> rfl
  have h2 : List.insertionSort (· ≤ ·) (nonzeroVals [[1, 2], [4, 3]]) = List.range' 1 4 := by
    decide
  have h3 : solveZipDFS [[1, 2], [4, 3]] = some [(0, 0), (0, 1), (1, 1), (1, 0)] := by
    decide
  exact ⟨⟨h1, h2, h3⟩, solveZipDFS_sound _ 4 h1 h2 _ h3⟩

/-! ## Claim C8: sampler output shape -/

theorem cons_set_perm {α : Type} : ∀ (t : List α) (m : Nat) (x y : α),
    t.get? m = some y → (y :: t.set m x).Perm (x :: t) := by
  intro t
  induction t with
  | nil => intro m x y h; simp at h
  | cons z t ih =>
    intro m x y h
    cases m with
    | zero =>
      have hz : z = y := by simpa using h
      subst hz
      exact List.Perm.swap _ _ _
    | succ k =>
      have h' : t.get? k = some y := h
      show (y :: z :: t.set k x).Perm (x :: z :: t)
      exact (List.Perm.swap z y _).trans (((ih k x y h').cons z).trans (List.Perm.swap x z t))

theorem set_set_perm {α : Type} : ∀ (l : List α) (i j : Nat) (x y : α),
    l.get? i = some x → l.get? j = some y → ((l.set i y).set j x).Perm l := by
  intro l
  induction l with
  | nil => intro i j x y h _; simp at h
  | cons z t ih =>
    intro i j x y hi hj
    cases i with
    | zero =>
      have hzx : z = x := by simpa using hi
      cases j with
      | zero =>
        have hzy : z = y := by simpa using hj
        show (x :: t).Perm (z :: t)
        rw [hzx]
      | succ k =>
        have hj' : t.get? k = some y := hj
        show (y :: t.set k x).Perm (z :: t)
        rw [hzx]
        exact cons_set_perm t k x y hj'
    | succ m =>
      have hi' : t.get? m = some x := hi
      cases j with
      | zero =>
        have hzy : z = y := by simpa using hj
        show (x :: t.set m y).Perm (z :: t)
        rw [hzy]
        exact cons_set_perm t m y x hi'
      | succ k =>
        have hj' : t.get? k = some y := hj
        show (z :: (t.set m y).set k x).Perm (z :: t)
        exact (ih m k x y hi' hj').cons z

theorem listSwap_perm {α : Type} (l : List α) (a b : Nat) : (listSwap l a b).Perm l := by
  unfold listSwap
  cases ha : l.get? a with
  | none => exact List.Perm.refl l
  | some x =>
    cases hb : l.get? b with
    | none => exact List.Perm.refl l
    | some y => exact set_set_perm l a b x y ha hb

theorem shuffleAux_perm {α : Type} (f : RNG) : ∀ (i : Nat) (t : Nat) (l : List α),
    (shuffleAux f t l i).Perm l := by
  intro i
  induction i with
  | zero => intro t l; exact List.Perm.refl l
  | succ i ih =>
    intro t l
    show (shuffleAux f (t + 1) (listSwap l (i + 1) (f t % (i + 2))) i).Perm l
    exact (ih (t + 1) _).trans (listSwap_perm _ _ _)

theorem shuffle_perm {α : Type} (f : RNG) (t0 : Nat) (l : List α) :
    (shuffle f t0 l).Perm l :=
  shuffleAux_perm f _ t0 l

theorem getD_set_self (l : List Nat) (i a : Nat) (h : i < l.length) :
    (l.set i a).getD i 0 = a := by
  rw [List.getD_eq_getElem?_getD, List.getElem?_set_self (by simpa using h)]
  rfl

theorem getD_set_ne (l : List Nat) (i j a : Nat) (h : i ≠ j) :
    (l.set i a).getD j 0 = l.getD j 0 := by
  rw [List.getD_eq_getElem?_getD, List.getD_eq_getElem?_getD, List.getElem?_set_ne h]

theorem getD_row_set_self (g : Grid) (i : Nat) (row : List Nat) (h : i < g.length) :
    (g.set i row).getD i [] = row := by
  rw [List.getD_eq_getElem?_getD, List.getElem?_set_self (by simpa using h)]
  rfl

theorem getD_row_set_ne (g : Grid) (i j : Nat) (row : List Nat) (h : i ≠ j) :
    (g.set i row).getD j [] = g.getD j [] := by
  rw [List.getD_eq_getElem?_getD, List.getD_eq_getElem?_getD, List.getElem?_set_ne h]

theorem cellVal_setCell_self {g : Grid} {r c : Nat} (v : Nat) (hr : r < g.length)
    (hc : c < (g.getD r []).length) : cellVal (setCell g r c v) r c = v := by
  unfold cellVal setCell
  rw [getD_row_set_self _ _ _ hr, getD_set_self _ _ _ hc]

theorem cellVal_setCell_ne {g : Grid} {r c : Nat} (v : Nat) {r' c' : Nat}
    (h : (r', c') ≠ (r, c)) : cellVal (setCell g r c v) r' c' = cellVal g r' c' := by
  unfold cellVal setCell
  by_cases hr : r = r'
  · subst hr
    have hc : c ≠ c' := fun hc => h (by rw [hc])
    by_cases hrl : r < g.length
    · rw [getD_row_set_self _ _ _ hrl, getD_set_ne _ _ _ _ hc]
    · rw [List.set_eq_of_length_le (by omega)]
  · rw [getD_row_set_ne _ _ _ _ hr]

theorem setCell_length (g : Grid) (r c v : Nat) : (setCell g r c v).length = g.length := by
  unfold setCell
  exact List.length_set ..

theorem setCell_row_length (g : Grid) (r c v i : Nat) :
    ((setCell g r c v).getD i []).length = (g.getD i []).length := by
  unfold setCell
  by_cases hr : r = i
  · subst hr
    by_cases hrl : r < g.length
    · rw [getD_row_set_self _ _ _ hrl]
      exact List.length_set ..
    · rw [List.set_eq_of_length_le (by omega)]
  · rw [getD_row_set_ne _ _ _ _ hr]

theorem placeLabels_length : ∀ (cells : List Coord) (g : Grid) (k : Nat),
    (placeLabels g cells k).length = g.length := by
  intro cells
  induction cells with
  | nil => intro g k; rfl
  | cons q rest ih =>
    intro g k
    show (placeLabels (setCell g q.1 q.2 k) rest (k + 1)).length = g.length
    rw [ih, setCell_length]

theorem placeLabels_row_length : ∀ (cells : List Coord) (g : Grid) (k i : Nat),
    ((placeLabels g cells k).getD i []).length = (g.getD i []).length := by
  intro cells
  induction cells with
  | nil => intro g k i; rfl
  | cons q rest ih =>
    intro g k i
    show ((placeLabels (setCell g q.1 q.2 k) rest (k + 1)).getD i []).length = _
    rw [ih, setCell_row_length]

theorem cellVal_makeEmptyGrid (n r c : Nat) : cellVal (makeEmptyGrid n) r c = 0 := by
  unfold cellVal makeEmptyGrid
  have hrow : (List.replicate n (List.replicate n 0)).getD r [] =
      if r < n then List.replicate n 0 else [] := by
    rw [List.getD_eq_getElem?_getD, List.getElem?_replicate]
    split <;> rfl
  rw [hrow]
  split
  · rw [List.getD_eq_getElem?_getD, List.getElem?_replicate]
    split <;> rfl
  · rfl

theorem nonzeroVals_makeEmptyGrid (n : Nat) : nonzeroVals (makeEmptyGrid n) = [] := by
  unfold nonzeroVals
  rw [List.filter_eq_nil_iff]
  intro v hv
  obtain ⟨q, _, hq⟩ := List.mem_map.mp hv
  rw [← hq, cellVal_makeEmptyGrid]
  simp

theorem nzvals_setCell {g : Grid} {r c v : Nat} (hr : r < g.length) (hcn : c < g.length)
    (hc : c < (g.getD r []).length) (h0 : cellVal g r c = 0) (hv : v ≠ 0) :
    (nonzeroVals (setCell g r c v)).Perm (v :: nonzeroVals g) := by
  have hlen : (setCell g r c v).length = g.length := setCell_length ..
  have hmem : (r, c) ∈ allCells g.length := mem_allCells.mpr ⟨hr, hcn⟩
  have hnd := nodup_allCells g.length
  obtain ⟨s, t, hst⟩ := List.append_of_mem hmem
  have hperm : (allCells g.length).Perm ((r, c) :: (s ++ t)) := by
    rw [hst]
    exact List.perm_middle
  have herase : ∀ q ∈ s ++ t, q ≠ (r, c) := by
    rw [hst] at hnd
    intro q hq hqe
    subst hqe
    rcases List.mem_append.mp hq with h | h
    · exact (List.nodup_append.mp hnd).2.2 h (List.mem_cons_self ..)
    · exact (List.nodup_cons.mp (List.nodup_append.mp hnd).2.1).1 h
  have hmapset := hperm.map fun q => cellVal (setCell g r c v) q.1 q.2
  have hmapold := hperm.map fun q => cellVal g q.1 q.2
  simp only [List.map_cons] at hmapset hmapold
  have hcells : cellVal (setCell g r c v) r c = v := cellVal_setCell_self v hr hc
  have hmapeq : (s ++ t).map (fun q => cellVal (setCell g r c v) q.1 q.2) =
      (s ++ t).map fun q => cellVal g q.1 q.2 := by
    apply List.map_congr_left
    intro q hq
    exact cellVal_setCell_ne v (by simpa using herase q hq)
  rw [hcells, hmapeq] at hmapset
  rw [h0] at hmapold
  have hset1 := hmapset.filter (· != 0)
  have hold1 := hmapold.filter (· != 0)
  have hvb : (v != 0) = true := by simpa [bne_iff_ne] using hv
  simp only [List.filter_cons, hvb, if_true] at hset1
  simp only [List.filter_cons] at hold1
  simp only [show ((0 : Nat) != 0) = false from rfl, if_false] at hold1
  have hfinal : (nonzeroVals (setCell g r c v)).Perm
      (v :: ((s ++ t).map fun q => cellVal g q.1 q.2).filter (· != 0)) := by
    unfold nonzeroVals
    rw [hlen]
    exact hset1
  have hback : (((s ++ t).map fun q => cellVal g q.1 q.2).filter (· != 0)).Perm
      (nonzeroVals g) := by
    unfold nonzeroVals
    exact hold1.symm
  exact hfinal.trans (hback.cons v)

theorem nzvals_placeLabels : ∀ (cells : List Coord) (g : Grid) (k : Nat),
    cells.Nodup →
    (∀ q ∈ cells, q.1 < g.length ∧ q.2 < g.length ∧
      q.2 < (g.getD q.1 []).length ∧ cellVal g q.1 q.2 = 0) →
    0 < k →
    (nonzeroVals (placeLabels g cells k)).Perm (List.range' k cells.length ++ nonzeroVals g) := by
  intro cells
  induction cells with
  | nil =>
    intro g k _ _ _
    exact List.Perm.refl _
  | cons q rest ih =>
    intro g k hnd hcond hk
    obtain ⟨hq1, hq1b, hq2, hq0⟩ := hcond q (List.mem_cons_self ..)
    have hrest : ∀ q' ∈ rest, q'.1 < (setCell g q.1 q.2 k).length ∧
        q'.2 < (setCell g q.1 q.2 k).length ∧
        q'.2 < ((setCell g q.1 q.2 k).getD q'.1 []).length ∧
        cellVal (setCell g q.1 q.2 k) q'.1 q'.2 = 0 := by
      intro q' hq'
      obtain ⟨h1, h1b, h2, h3⟩ := hcond q' (List.mem_cons_of_mem _ hq')
      have hne : q' ≠ q := by
        intro hh
        subst hh
        exact (List.nodup_cons.mp hnd).1 hq'
      refine ⟨by rw [setCell_length]; exact h1, by rw [setCell_length]; exact h1b,
        by rw [setCell_row_length]; exact h2, ?_⟩
      rw [cellVal_setCell_ne k (by simpa using hne)]
      exact h3
    have hstep := ih (setCell g q.1 q.2 k) (k + 1) (List.nodup_cons.mp hnd).2 hrest (by omega)
    show (nonzeroVals (placeLabels (setCell g q.1 q.2 k) rest (k + 1))).Perm _
    have hsc := nzvals_setCell (v := k) hq1 hq1b hq2 hq0 (by omega)
    have hmid : (List.range' (k + 1) rest.length ++ (k :: nonzeroVals g)).Perm
        (List.range' k (rest.length + 1) ++ nonzeroVals g) := by
      have hr : List.range' k (rest.length + 1) = k :: List.range' (k + 1) rest.length := rfl
      rw [hr]
      exact List.perm_middle
    exact (hstep.trans ((List.Perm.refl _).append hsc)).trans hmid

theorem allCells_length (n : Nat) : (allCells n).length = n * n := by
  have h : allCells n = (List.range n) ×ˢ (List.range n) := rfl
  rw [h, List.length_product, List.length_range]

/-- C8.  For every dimension `n ≥ 2` and every behaviour of the random
source, `randomPuzzleGrid n` returns an `n × n` grid whose checkpoint count
`K` lies in `[n, 2n + max(0, n−3)]` (`2*n + (n - 3)` in natural-number
arithmetic) and whose sorted non-zero values are exactly `1..K` — i.e.
each value of `1..K` sits at exactly one cell and every other cell is 0. -/
theorem randomPuzzleGrid_shape (n : Nat) (hn : 2 ≤ n) (f : RNG) :
    ∃ K, n ≤ K ∧ K ≤ 2 * n + (n - 3) ∧
      (randomPuzzleGrid n f).length = n ∧
      squareGrid (randomPuzzleGrid n f) ∧
      List.insertionSort (· ≤ ·) (nonzeroVals (randomPuzzleGrid n f)) = List.range' 1 K := by
  have hg : randomPuzzleGrid n f =
      placeLabels (makeEmptyGrid n)
        ((shuffle f 1 (allCells n)).take (randInt n (2 * n + (n - 3)) (f 0))) 1 := rfl
  set K := randInt n (2 * n + (n - 3)) (f 0) with hKdef
  have hmod := Nat.mod_lt (f 0) (y := 2 * n + (n - 3) - n + 1) (by omega)
  have hKlo : n ≤ K := Nat.le_add_right ..
  have hKhi : K ≤ 2 * n + (n - 3) := by
    rw [hKdef]
    unfold randInt
    omega
  have hKnn : K ≤ n * n := by
    rcases Nat.lt_or_ge n 3 with h3 | h3
    · have hn2 : n = 2 := by omega
      subst hn2
      exact le_trans hKhi (by norm_num)
    · have h1 : 2 * n + (n - 3) ≤ 3 * n := by omega
      have h2 : 3 * n ≤ n * n := Nat.mul_le_mul_right n h3
      omega
  have hperm := shuffle_perm f 1 (allCells n)
  have hslen : (shuffle f 1 (allCells n)).length = n * n := by
    rw [hperm.length_eq, allCells_length]
  have htlen : ((shuffle f 1 (allCells n)).take K).length = K := by
    rw [List.length_take, hslen]
    omega
  have hnodup : ((shuffle f 1 (allCells n)).take K).Nodup :=
    ((hperm.nodup_iff).mpr (nodup_allCells n)).sublist (List.take_sublist ..)
  have hrowempty : ∀ i, i < n → (makeEmptyGrid n).getD i [] = List.replicate n 0 := by
    intro i hi
    unfold makeEmptyGrid
    rw [List.getD_eq_getElem?_getD, List.getElem?_replicate]
    simp [hi]
  have hcond : ∀ q ∈ (shuffle f 1 (allCells n)).take K,
      q.1 < (makeEmptyGrid n).length ∧ q.2 < (makeEmptyGrid n).length ∧
      q.2 < ((makeEmptyGrid n).getD q.1 []).length ∧ cellVal (makeEmptyGrid n) q.1 q.2 = 0 := by
    intro q hq
    have hq' : q ∈ allCells n := hperm.mem_iff.mp (List.mem_of_mem_take hq)
    obtain ⟨h1, h2⟩ := mem_allCells.mp hq'
    have hml : (makeEmptyGrid n).length = n := List.length_replicate ..
    refine ⟨by rw [hml]; exact h1, by rw [hml]; exact h2, ?_, cellVal_makeEmptyGrid ..⟩
    rw [hrowempty q.1 h1, List.length_replicate]
    exact h2
  have hvals := nzvals_placeLabels _ (makeEmptyGrid n) 1 hnodup hcond (by omega)
  rw [htlen, nonzeroVals_makeEmptyGrid, List.append_nil] at hvals
  rw [hg]
  refine ⟨K, hKlo, hKhi, ?_, ?_, ?_⟩
  · rw [placeLabels_length]
    exact List.length_replicate ..
  · intro row hrow
    obtain ⟨i, hi, hgi⟩ := List.getElem_of_mem hrow
    have hplen : (placeLabels (makeEmptyGrid n) ((shuffle f 1 (allCells n)).take K) 1).length
        = n := by
      rw [placeLabels_length]
      exact List.length_replicate ..
    rw [hplen] at hi ⊢
    have hgd : (placeLabels (makeEmptyGrid n) ((shuffle f 1 (allCells n)).take K) 1).getD i []
        = row := by
      rw [List.getD_eq_getElem?_getD, List.getElem?_eq_getElem (by rw [hplen]; exact hi), hgi]
      rfl
    rw [← hgd, placeLabels_row_length, hrowempty i hi, List.length_replicate]
  · exact List.eq_of_perm_of_sorted (r := (· ≤ ·))
      ((List.perm_insertionSort _ _).trans hvals)
      (List.sorted_insertionSort _ _)
      ((List.pairwise_lt_range' 1 K).imp le_of_lt)

/-- Witness for C8 at `n = 2` with the all-zero random stream. -/
theorem randomPuzzleGrid_shape_witness :
    (2 ≤ 2) ∧ ∃ K, 2 ≤ K ∧ K ≤ 2 * 2 + (2 - 3) ∧
      (randomPuzzleGrid 2 fun _ => 0).length = 2 ∧
      squareGrid (randomPuzzleGrid 2 fun _ => 0) ∧
      List.insertionSort (· ≤ ·) (nonzeroVals (randomPuzzleGrid 2 fun _ => 0)) =
        List.range' 1 K :=
  ⟨by decide, randomPuzzleGrid_shape 2 (by decide) fun _ => 0⟩

/-! ## Claims C3, C4, C5, C7: the generation loop -/

theorem dfs_extends (g : Grid) (n K : Nat) : ∀ fuel path r c nextReq p,
    dfs g n K fuel path r c nextReq = some p → path <+: p := by
  intro fuel
  induction fuel with
  | zero =>
    intro path r c nextReq p h
    exact absurd h (by simp [dfs])
  | succ fuel ih =>
    intro path r c nextReq p h
    simp only [dfs] at h
    by_cases hlen : (path.length == n * n) = true
    · rw [if_pos hlen] at h
      by_cases hacc : (nextReq == K + 1 && cellVal g r c == K) = true
      · rw [if_pos hacc] at h
        injection h with h
        subst h
        exact List.prefix_rfl
      · rw [if_neg hacc] at h
        exact absurd h (by simp)
    · rw [if_neg hlen] at h
      by_cases hp1 : (!reachableToNeeded g n path r c
          (if nextReq ≤ K then some nextReq else none)) = true
      · rw [if_pos hp1] at h
        exact absurd h (by simp)
      · rw [if_neg hp1] at h
        by_cases hp2 : (!walkableUnvisitedConnected g n path
            (if nextReq ≤ K then some nextReq else none)) = true
        · rw [if_pos hp2] at h
          exact absurd h (by simp)
        · rw [if_neg hp2] at h
          obtain ⟨qn, _, hqn⟩ := List.exists_of_findSome?_eq_some h
          exact (List.prefix_append path [qn]).trans (ih _ _ _ _ _ hqn)

theorem solveZipDFS_ne_nil {g : Grid} {p : List Coord} (h : solveZipDFS g = some p) :
    p ≠ [] := by
  simp only [solveZipDFS] at h
  split at h
  · exact absurd h (by simp)
  · split at h
    · exact absurd h (by simp)
    · split at h
      · exact absurd h (by simp)
      · split at h
        · exact absurd h (by simp)
        · split at h
          · exact absurd h (by simp)
          · next s heq =>
            obtain ⟨t, ht⟩ := dfs_extends _ _ _ _ _ _ _ _ _ h
            intro hp
            rw [hp] at ht
            simp at ht

theorem randomPuzzleGrid_length (n : Nat) (f : RNG) : (randomPuzzleGrid n f).length = n := by
  have hg : randomPuzzleGrid n f =
      placeLabels (makeEmptyGrid n)
        ((shuffle f 1 (allCells n)).take (randInt n (2 * n + (n - 3)) (f 0))) 1 := rfl
  rw [hg, placeLabels_length]
  exact List.length_replicate ..

theorem generateSolvablePuzzle_spec (n : Nat) : ∀ fuel f g p f',
    generateSolvablePuzzle n fuel f = (some (g, p), f') →
    g.length = n ∧ solveZipDFS g = some p := by
  intro fuel
  induction fuel with
  | zero =>
    intro f g p f' h
    simp [generateSolvablePuzzle] at h
  | succ fuel ih =>
    intro f g p f' h
    simp only [generateSolvablePuzzle] at h
    cases hsolve : solveZipDFS (randomPuzzleGrid n f) with
    | some q =>
      rw [hsolve] at h
      injection h with h1 _
      injection h1 with h1
      injection h1 with hg hp
      subst hg
      subst hp
      exact ⟨randomPuzzleGrid_length n f, hsolve⟩
    | none =>
      rw [hsolve] at h
      exact ih _ _ _ _ h

theorem runExtends_refl (st : RunState) : RunExtends st st := by
  refine ⟨[], by simp, by simp, rfl, by simp, fun k hk => hk, fun k hk => hk, fun h => h⟩

theorem runExtends_trans {s1 s2 s3 : RunState} (h1 : RunExtends s1 s2)
    (h2 : RunExtends s2 s3) : RunExtends s1 s3 := by
  obtain ⟨n1, hp1, hi1, hm1, hs1, hg1, hl1, hk1⟩ := h1
  obtain ⟨n2, hp2, hi2, hm2, hs2, hg2, hl2, hk2⟩ := h2
  refine ⟨n1 ++ n2, ?_, ?_, ?_, ?_, ?_, ?_, ?_⟩
  · rw [hp2, hp1, List.append_assoc]
  · rw [hi2, hi1, List.length_append]
    omega
  · rw [List.map_append, hm1, hm2, hi1, List.length_append, List.range_add,
      List.map_append, List.map_map]
    congr 1
    apply List.map_congr_left
    intro j _
    simp only [Function.comp]
    congr 1
    push_cast
    ring
  · intro q hq
    rcases List.mem_append.mp hq with hq | hq
    · exact hs1 q hq
    · exact hs2 q hq
  · exact fun k hk => hg2 k (hg1 k hk)
  · exact fun k hk => hl2 k (hl1 k hk)
  · exact fun h => hk2 (hk1 h)

theorem sizeLoop_succ (n target fuel : Nat) (st : RunState) (got fails att : Nat) :
    sizeLoop n target (fuel + 1) st got fails att =
      if got < target then
        match (generateSolvablePuzzle n 2000 st.rng).1 with
        | none =>
          if fails + 1 ≥ MAX_CONSECUTIVE_FAILS then
            ⟨⟨st.puzzles, st.seenGrids, st.seenSols, st.nextId,
              (generateSolvablePuzzle n 2000 st.rng).2⟩, got, fails + 1, att + 1⟩
          else
            sizeLoop n target fuel
              ⟨st.puzzles, st.seenGrids, st.seenSols, st.nextId,
                (generateSolvablePuzzle n 2000 st.rng).2⟩ got (fails + 1) (att + 1)
        | some (g, p) =>
          if st.seenGrids.contains (puzzleGridKey n g) ||
              st.seenSols.contains (puzzleSolutionKey n (intPath p)) then
            if fails + 1 ≥ MAX_CONSECUTIVE_FAILS then
              ⟨⟨st.puzzles, st.seenGrids, st.seenSols, st.nextId,
                (generateSolvablePuzzle n 2000 st.rng).2⟩, got, fails + 1, att + 1⟩
            else
              sizeLoop n target fuel
                ⟨st.puzzles, st.seenGrids, st.seenSols, st.nextId,
                  (generateSolvablePuzzle n 2000 st.rng).2⟩ got (fails + 1) (att + 1)
          else
            sizeLoop n target fuel
              ⟨st.puzzles ++ [⟨some st.nextId, .arr g,
                  .str (solutionPathToString (intPath p))⟩],
                puzzleGridKey n g :: st.seenGrids,
                puzzleSolutionKey n (intPath p) :: st.seenSols,
                st.nextId + 1,
                (generateSolvablePuzzle n 2000 st.rng).2⟩ (got + 1) 0 (att + 1)
      else ⟨st, got, fails, att⟩ := rfl

theorem contains_false_not_mem {l : List JStr} {a : JStr} (h : l.contains a = false) :
    a ∉ l := by
  simpa using h

theorem runExtends_rng (st : RunState) (f : RNG) :
    RunExtends st ⟨st.puzzles, st.seenGrids, st.seenSols, st.nextId, f⟩ :=
  ⟨[], by simp, by simp, rfl, by simp, fun _ hk => hk, fun _ hk => hk, fun h => h⟩

theorem accept_extends (n : Nat) (st : RunState) (g : Grid) (p : List Coord) (f' : RNG)
    (hdraw : generateSolvablePuzzle n 2000 st.rng = (some (g, p), f'))
    (hfresh : (st.seenGrids.contains (puzzleGridKey n g) ||
      st.seenSols.contains (puzzleSolutionKey n (intPath p))) = false) :
    RunExtends st
      ⟨st.puzzles ++ [⟨some st.nextId, .arr g, .str (solutionPathToString (intPath p))⟩],
        puzzleGridKey n g :: st.seenGrids,
        puzzleSolutionKey n (intPath p) :: st.seenSols,
        st.nextId + 1, f'⟩ := by
  obtain ⟨hglen, hsolve⟩ := generateSolvablePuzzle_spec n 2000 st.rng g p f' hdraw
  obtain ⟨hfg, hfs⟩ := Bool.or_eq_false_iff.mp hfresh
  have hgNotSeen := contains_false_not_mem hfg
  have hsNotSeen := contains_false_not_mem hfs
  set newRec : RawRecord :=
    ⟨some st.nextId, .arr g, .str (solutionPathToString (intPath p))⟩ with hnewRec
  have hpne : intPath p ≠ [] := by
    intro hnil
    have := solveZipDFS_ne_nil hsolve
    unfold intPath at hnil
    exact this (List.map_eq_nil_iff.mp hnil)
  have hgk : recGridKey newRec = some (puzzleGridKey n g) := by
    unfold recGridKey decodeGrid
    rw [hnewRec]
    simp [hglen]
  have hsk : recSolKey newRec = some (puzzleSolutionKey n (intPath p)) := by
    unfold recSolKey decodeGrid decodeSol
    rw [hnewRec]
    simp only
    rw [stringToSolutionPath_roundTrip (intPath p) hpne]
    show some (puzzleSolutionKey g.length (intPath p)) = some (puzzleSolutionKey n (intPath p))
    rw [hglen]
  refine ⟨[newRec], rfl, by simp, by simp [List.range_succ], ?_, ?_, ?_, ?_⟩
  · intro q hq
    rw [List.mem_singleton] at hq
    subst hq
    exact ⟨g, p, rfl, hsolve, rfl⟩
  · exact fun k hk => List.mem_cons_of_mem _ hk
  · exact fun k hk => List.mem_cons_of_mem _ hk
  · rintro ⟨hgi, hsi, hdi⟩
    refine ⟨?_, ?_, ?_⟩
    · intro q hq k hk
      rcases List.mem_append.mp hq with hq | hq
      · exact List.mem_cons_of_mem _ (hgi q hq k hk)
      · rw [List.mem_singleton] at hq
        subst hq
        rw [hgk] at hk
        injection hk with hk
        rw [← hk]
        exact List.mem_cons_self ..
    · intro q hq k hk
      rcases List.mem_append.mp hq with hq | hq
      · exact List.mem_cons_of_mem _ (hsi q hq k hk)
      · rw [List.mem_singleton] at hq
        subst hq
        rw [hsk] at hk
        injection hk with hk
        rw [← hk]
        exact List.mem_cons_self ..
    · unfold DistinctKeys
      rw [List.pairwise_append]
      refine ⟨hdi, List.pairwise_singleton _ _, ?_⟩
      intro a ha b hb
      rw [List.mem_singleton] at hb
      subst hb
      constructor
      · intro k hka hkb
        rw [hgk] at hkb
        injection hkb with hkb
        subst hkb
        exact hgNotSeen (hgi a ha _ hka)
      · intro k hka hkb
        rw [hsk] at hkb
        injection hkb with hkb
        subst hkb
        exact hsNotSeen (hsi a ha _ hka)

theorem sizeLoop_extends (n target : Nat) : ∀ fuel st got fails att,
    RunExtends st (sizeLoop n target fuel st got fails att).state := by
  intro fuel
  induction fuel with
  | zero =>
    intro st got fails att
    exact runExtends_refl st
  | succ fuel ih =>
    intro st got fails att
    rw [sizeLoop_succ]
    by_cases hgot : got < target
    · rw [if_pos hgot]
      split
      · split
        · exact runExtends_rng st _
        · exact runExtends_trans (runExtends_rng st _) (ih _ _ _ _)
      · next g p heq =>
        split
        · split
          · exact runExtends_rng st _
          · exact runExtends_trans (runExtends_rng st _) (ih _ _ _ _)
        · next hdup =>
          have hdraw : generateSolvablePuzzle n 2000 st.rng =
              (some (g, p), (generateSolvablePuzzle n 2000 st.rng).2) := by
            rw [← heq]
          have hfresh : (st.seenGrids.contains (puzzleGridKey n g) ||
              st.seenSols.contains (puzzleSolutionKey n (intPath p))) = false := by
            simpa using hdup
          exact runExtends_trans (accept_extends n st g p _ hdraw hfresh) (ih _ _ _ _)
    · rw [if_neg hgot]
      exact runExtends_refl st

theorem loadRecord_spec (st : LoadState) (q : RawRecord) :
    st.nextId ≤ (loadRecord st q).nextId ∧
    (∀ k ∈ st.seenGrids, k ∈ (loadRecord st q).seenGrids) ∧
    (∀ k ∈ st.seenSols, k ∈ (loadRecord st q).seenSols) ∧
    (∀ k, recGridKey q = some k → k ∈ (loadRecord st q).seenGrids) ∧
    (∀ k, recSolKey q = some k → k ∈ (loadRecord st q).seenSols) ∧
    ((decodeGrid q.grid).isSome → ∀ i, q.id = some i → i < (loadRecord st q).nextId) := by
  have hgk : ∀ k, recGridKey q = some k →
      (decodeGrid q.grid).map (fun g => puzzleGridKey g.length g) = some k := fun k hk => hk
  cases hdec : decodeGrid q.grid with
  | none =>
    simp only [loadRecord, hdec]
    refine ⟨le_refl _, fun k hk => hk, fun k hk => hk, ?_, ?_, ?_⟩
    · intro k hk
      have := hgk k hk
      rw [hdec] at this
      simp at this
    · intro k hk
      unfold recSolKey at hk
      rw [hdec] at hk
      simp at hk
    · intro hs
      simp at hs
  | some grid =>
    have hgk' : ∀ k, recGridKey q = some k → k = puzzleGridKey grid.length grid := by
      intro k hk
      have := hgk k hk
      rw [hdec] at this
      simpa using this.symm
    have hsk' : ∀ k, recSolKey q = some k →
        ∃ s, decodeSol q.solutionPath = some s ∧ k = puzzleSolutionKey grid.length s := by
      intro k hk
      unfold recSolKey at hk
      rw [hdec] at hk
      cases hsol : decodeSol q.solutionPath with
      | none =>
        rw [hsol] at hk
        simp at hk
      | some s =>
        rw [hsol] at hk
        simp at hk
        exact ⟨s, rfl, hk.symm⟩
    cases hid : q.id with
    | none =>
      cases hsol : decodeSol q.solutionPath with
      | none =>
        cases hre : solveZipDFS grid with
        | none =>
          simp only [loadRecord, hdec, hid, hsol, hre, Option.map_none]
          refine ⟨le_refl _, fun k hk => List.mem_cons_of_mem _ hk, fun k hk => hk, ?_, ?_, ?_⟩
          · intro k hk
            rw [hgk' k hk]
            exact List.mem_cons_self ..
          · intro k hk
            obtain ⟨s, hs, _⟩ := hsk' k hk
            rw [hsol] at hs
            simp at hs
          · intro _ i hi
            simp at hi
        | some p2 =>
          simp only [loadRecord, hdec, hid, hsol, hre, Option.map_some]
          refine ⟨le_refl _, fun k hk => List.mem_cons_of_mem _ hk,
            fun k hk => List.mem_cons_of_mem _ hk, ?_, ?_, ?_⟩
          · intro k hk
            rw [hgk' k hk]
            exact List.mem_cons_self ..
          · intro k hk
            obtain ⟨s, hs, _⟩ := hsk' k hk
            rw [hsol] at hs
            simp at hs
          · intro _ i hi
            simp at hi
      | some s =>
        simp only [loadRecord, hdec, hid, hsol]
        refine ⟨le_refl _, fun k hk => List.mem_cons_of_mem _ hk,
          fun k hk => List.mem_cons_of_mem _ hk, ?_, ?_, ?_⟩
        · intro k hk
          rw [hgk' k hk]
          exact List.mem_cons_self ..
        · intro k hk
          obtain ⟨s2, hs2, hks⟩ := hsk' k hk
          rw [hsol] at hs2
          injection hs2 with hs2
          subst hs2
          rw [hks]
          exact List.mem_cons_self ..
        · intro _ i hi
          simp at hi
    | some j =>
      cases hsol : decodeSol q.solutionPath with
      | none =>
        cases hre : solveZipDFS grid with
        | none =>
          simp only [loadRecord, hdec, hid, hsol, hre, Option.map_none]
          refine ⟨le_max_left .., fun k hk => List.mem_cons_of_mem _ hk, fun k hk => hk,
            ?_, ?_, ?_⟩
          · intro k hk
            rw [hgk' k hk]
            exact List.mem_cons_self ..
          · intro k hk
            obtain ⟨s, hs, _⟩ := hsk' k hk
            rw [hsol] at hs
            simp at hs
          · intro _ i hi
            injection hi with hi
            subst hi
            exact lt_of_lt_of_le (by omega) (le_max_right ..)
        | some p2 =>
          simp only [loadRecord, hdec, hid, hsol, hre, Option.map_some]
          refine ⟨le_max_left .., fun k hk => List.mem_cons_of_mem _ hk,
            fun k hk => List.mem_cons_of_mem _ hk, ?_, ?_, ?_⟩
          · intro k hk
            rw [hgk' k hk]
            exact List.mem_cons_self ..
          · intro k hk
            obtain ⟨s, hs, _⟩ := hsk' k hk
            rw [hsol] at hs
            simp at hs
          · intro _ i hi
            injection hi with hi
            subst hi
            exact lt_of_lt_of_le (by omega) (le_max_right ..)
      | some s =>
        simp only [loadRecord, hdec, hid, hsol]
        refine ⟨le_max_left .., fun k hk => List.mem_cons_of_mem _ hk,
          fun k hk => List.mem_cons_of_mem _ hk, ?_, ?_, ?_⟩
        · intro k hk
          rw [hgk' k hk]
          exact List.mem_cons_self ..
        · intro k hk
          obtain ⟨s2, hs2, hks⟩ := hsk' k hk
          rw [hsol] at hs2
          injection hs2 with hs2
          subst hs2
          rw [hks]
          exact List.mem_cons_self ..
        · intro _ i hi
          injection hi with hi
          subst hi
          exact lt_of_lt_of_le (by omega) (le_max_right ..)

theorem loadFold_spec : ∀ (l : List RawRecord) (st : LoadState),
    st.nextId ≤ (l.foldl loadRecord st).nextId ∧
    (∀ k ∈ st.seenGrids, k ∈ (l.foldl loadRecord st).seenGrids) ∧
    (∀ k ∈ st.seenSols, k ∈ (l.foldl loadRecord st).seenSols) ∧
    (∀ q ∈ l, ∀ k, recGridKey q = some k → k ∈ (l.foldl loadRecord st).seenGrids) ∧
    (∀ q ∈ l, ∀ k, recSolKey q = some k → k ∈ (l.foldl loadRecord st).seenSols) ∧
    (∀ q ∈ l, (decodeGrid q.grid).isSome →
      ∀ i, q.id = some i → i < (l.foldl loadRecord st).nextId) := by
  intro l
  induction l with
  | nil =>
    intro st
    exact ⟨le_refl _, fun _ hk => hk, fun _ hk => hk,
      fun q hq => absurd hq (List.not_mem_nil q),
      fun q hq => absurd hq (List.not_mem_nil q),
      fun q hq => absurd hq (List.not_mem_nil q)⟩
  | cons p l ih =>
    intro st
    obtain ⟨hmono, hg, hs, hgk, hsk, hid⟩ := loadRecord_spec st p
    obtain ⟨ihmono, ihg, ihs, ihgk, ihsk, ihid⟩ := ih (loadRecord st p)
    show st.nextId ≤ (l.foldl loadRecord (loadRecord st p)).nextId ∧ _
    refine ⟨le_trans hmono ihmono, fun k hk => ihg k (hg k hk), fun k hk => ihs k (hs k hk),
      ?_, ?_, ?_⟩
    · intro q hq k hk
      rcases List.mem_cons.mp hq with rfl | hq
      · exact ihg k (hgk k hk)
      · exact ihgk q hq k hk
    · intro q hq k hk
      rcases List.mem_cons.mp hq with rfl | hq
      · exact ihs k (hsk k hk)
      · exact ihsk q hq k hk
    · intro q hq hdq i hi
      rcases List.mem_cons.mp hq with rfl | hq
      · exact lt_of_lt_of_le (hid hdq i hi) ihmono
      · exact ihid q hq hdq i hi

theorem foldl_sizeLoop_extends (tpairs : List (Nat × Nat)) :
    ∀ (sizes : List Nat) (st : RunState),
      RunExtends st (sizes.foldl (fun st s =>
        (sizeLoop s (targetOf tpairs s) (sizeFuel (targetOf tpairs s)) st 0 0 0).state) st) := by
  intro sizes
  induction sizes with
  | nil => intro st; exact runExtends_refl st
  | cons s rest ih =>
    intro st
    exact runExtends_trans (sizeLoop_extends s (targetOf tpairs s) _ st 0 0 0) (ih _)

theorem mainRun_spec (args : Args) (existing : List RawRecord) (f : RNG) :
    ∃ new : List RawRecord,
      (mainRun args existing f).puzzles = existing ++ new ∧
      (mainRun args existing f).nextId = (loadPhase existing).nextId + new.length ∧
      (new.map fun q => q.id) =
        (List.range new.length).map
          (fun j : Nat => some ((loadPhase existing).nextId + (j : Int))) ∧
      (∀ q ∈ new, ∃ g p, q.grid = JsonGrid.arr g ∧ solveZipDFS g = some p ∧
        q.solutionPath = JsonPath.str (solutionPathToString (intPath p))) ∧
      (∀ k ∈ (loadPhase existing).seenGrids, k ∈ (mainRun args existing f).seenGrids) ∧
      (∀ k ∈ (loadPhase existing).seenSols, k ∈ (mainRun args existing f).seenSols) ∧
      (KeysInv ⟨existing, (loadPhase existing).seenGrids, (loadPhase existing).seenSols,
          (loadPhase existing).nextId, f⟩ →
        KeysInv (mainRun args existing f)) := by
  obtain ⟨new, h1, h2, h3, h4, h5, h6, h7⟩ :=
    foldl_sizeLoop_extends (targetsFor args.count (List.insertionSort (· ≤ ·) args.sizes))
      (List.insertionSort (· ≤ ·) args.sizes)
      ⟨existing, (loadPhase existing).seenGrids, (loadPhase existing).seenSols,
        (loadPhase existing).nextId, f⟩
  exact ⟨new, h1, h2, h3, h4, h5, h6, h7⟩

/-! ## Claim C7: give-up policy -/

theorem sizeLoop_outcome (n target : Nat) : ∀ fuel st got fails att,
    got ≤ target → fails < MAX_CONSECUTIVE_FAILS →
    (target - got) * (MAX_CONSECUTIVE_FAILS + 1) + (MAX_CONSECUTIVE_FAILS - fails) < fuel →
    (sizeLoop n target fuel st got fails att).got = target ∨
      ((sizeLoop n target fuel st got fails att).got < target ∧
        (sizeLoop n target fuel st got fails att).fails = MAX_CONSECUTIVE_FAILS) := by
  intro fuel
  induction fuel with
  | zero =>
    intro st got fails att _ _ hm
    simp only [MAX_CONSECUTIVE_FAILS] at hm
    omega
  | succ fuel ih =>
    intro st got fails att hgot hfails hm
    rw [sizeLoop_succ]
    by_cases hlt : got < target
    · rw [if_pos hlt]
      split
      · split
        · next hge =>
          right
          refine ⟨hlt, ?_⟩
          show fails + 1 = MAX_CONSECUTIVE_FAILS
          simp only [MAX_CONSECUTIVE_FAILS] at hge hfails ⊢
          omega
        · next hge =>
          apply ih
          · exact hgot
          · simp only [MAX_CONSECUTIVE_FAILS] at hge hfails ⊢
            omega
          · simp only [MAX_CONSECUTIVE_FAILS] at hge hfails hm ⊢
            omega
      · split
        · split
          · next hge =>
            right
            refine ⟨hlt, ?_⟩
            show fails + 1 = MAX_CONSECUTIVE_FAILS
            simp only [MAX_CONSECUTIVE_FAILS] at hge hfails ⊢
            omega
          · next hge =>
            apply ih
            · exact hgot
            · simp only [MAX_CONSECUTIVE_FAILS] at hge hfails ⊢
              omega
            · simp only [MAX_CONSECUTIVE_FAILS] at hge hfails hm ⊢
              omega
        · apply ih
          · omega
          · simp only [MAX_CONSECUTIVE_FAILS]
            omega
          · simp only [MAX_CONSECUTIVE_FAILS] at hm ⊢
            omega
    · rw [if_neg hlt]
      left
      show got = target
      omega

/-- C7.  The give-up policy of the per-size loop: a failed or duplicate
candidate increments the consecutive-failure counter (and when it reaches
`MAX_CONSECUTIVE_FAILS = 100` the loop exits for that size, with no
further candidate draw); an acceptance appends the record and resets the
counter to 0; and with the loop's actual fuel every per-size run ends
either having met its target or having stopped at exactly 100 consecutive
failures — a non-fatal exit, after which `mainRun`'s fold simply proceeds
to the next size. -/
theorem giveUp_policy (n target : Nat) :
    (∀ fuel st got fails att g p f',
      got < target →
      generateSolvablePuzzle n 2000 st.rng = (some (g, p), f') →
      (st.seenGrids.contains (puzzleGridKey n g) ||
        st.seenSols.contains (puzzleSolutionKey n (intPath p))) = false →
      sizeLoop n target (fuel + 1) st got fails att =
        sizeLoop n target fuel
          ⟨st.puzzles ++ [⟨some st.nextId, .arr g, .str (solutionPathToString (intPath p))⟩],
            puzzleGridKey n g :: st.seenGrids,
            puzzleSolutionKey n (intPath p) :: st.seenSols,
            st.nextId + 1, f'⟩ (got + 1) 0 (att + 1)) ∧
    (∀ fuel st got fails att g p f',
      got < target →
      generateSolvablePuzzle n 2000 st.rng = (some (g, p), f') →
      (st.seenGrids.contains (puzzleGridKey n g) ||
        st.seenSols.contains (puzzleSolutionKey n (intPath p))) = true →
      sizeLoop n target (fuel + 1) st got fails att =
        if fails + 1 ≥ MAX_CONSECUTIVE_FAILS then
          ⟨⟨st.puzzles, st.seenGrids, st.seenSols, st.nextId, f'⟩, got, fails + 1, att + 1⟩
        else sizeLoop n target fuel
          ⟨st.puzzles, st.seenGrids, st.seenSols, st.nextId, f'⟩ got (fails + 1) (att + 1)) ∧
    (∀ fuel st got fails att f',
      got < target →
      generateSolvablePuzzle n 2000 st.rng = (none, f') →
      sizeLoop n target (fuel + 1) st got fails att =
        if fails + 1 ≥ MAX_CONSECUTIVE_FAILS then
          ⟨⟨st.puzzles, st.seenGrids, st.seenSols, st.nextId, f'⟩, got, fails + 1, att + 1⟩
        else sizeLoop n target fuel
          ⟨st.puzzles, st.seenGrids, st.seenSols, st.nextId, f'⟩ got (fails + 1) (att + 1)) ∧
    (∀ st, (sizeLoop n target (sizeFuel target) st 0 0 0).got = target ∨
      ((sizeLoop n target (sizeFuel target) st 0 0 0).got < target ∧
        (sizeLoop n target (sizeFuel target) st 0 0 0).fails = MAX_CONSECUTIVE_FAILS)) := by
  refine ⟨?_, ?_, ?_, ?_⟩
  · intro fuel st got fails att g p f' hgot hgen hfresh
    rw [sizeLoop_succ, if_pos hgot]
    simp only [hgen]
    rw [hfresh]
    rw [if_neg (by decide : ¬ (false = true))]
  · intro fuel st got fails att g p f' hgot hgen hdup
    rw [sizeLoop_succ, if_pos hgot]
    simp only [hgen]
    rw [hdup]
    rw [if_pos rfl]
  · intro fuel st got fails att f' hgot hgen
    rw [sizeLoop_succ, if_pos hgot]
    simp only [hgen]
  · intro st
    apply sizeLoop_outcome
    · omega
    · simp only [MAX_CONSECUTIVE_FAILS]
      omega
    · simp only [MAX_CONSECUTIVE_FAILS, sizeFuel]
      omega

set_option maxRecDepth 20000 in
theorem giveUp_policy_witness :
    (sizeLoop 2 1 1 ⟨[], [], [], 1, tfRNG⟩ 0 0 0 =
      sizeLoop 2 1 0
        ⟨[⟨some 1, .arr [[1, 2], [3, 0]],
            .str (solutionPathToString (intPath [(0, 0), (0, 1), (1, 1), (1, 0)]))⟩],
          [puzzleGridKey 2 [[1, 2], [3, 0]]],
          [puzzleSolutionKey 2 (intPath [(0, 0), (0, 1), (1, 1), (1, 0)])],
          2, (generateSolvablePuzzle 2 2000 tfRNG).2⟩ 1 0 1) ∧
    (sizeLoop 0 1 1 ⟨[], [], [], 1, fun _ => 0⟩ 0 0 0 =
      sizeLoop 0 1 0
        ⟨[], [], [], 1, (generateSolvablePuzzle 0 2000 (fun _ => 0)).2⟩ 0 1 1) ∧
    ((sizeLoop 2 1 (sizeFuel 1) ⟨[], [], [], 1, tfRNG⟩ 0 0 0).got = 1 ∨
      ((sizeLoop 2 1 (sizeFuel 1) ⟨[], [], [], 1, tfRNG⟩ 0 0 0).got < 1 ∧
        (sizeLoop 2 1 (sizeFuel 1) ⟨[], [], [], 1, tfRNG⟩ 0 0 0).fails =
          MAX_CONSECUTIVE_FAILS)) := by
  have h1 : (generateSolvablePuzzle 2 2000 tfRNG).1 =
      some ([[1, 2], [3, 0]], [(0, 0), (0, 1), (1, 1), (1, 0)]) := by decide
  have hgen : generateSolvablePuzzle 2 2000 tfRNG =
      (some ([[1, 2], [3, 0]], [(0, 0), (0, 1), (1, 1), (1, 0)]),
        (generateSolvablePuzzle 2 2000 tfRNG).2) := by
    rw [← h1]
  have h2 : (generateSolvablePuzzle 0 2000 (fun _ => 0)).1 = none := by decide
  have hgen2 : generateSolvablePuzzle 0 2000 (fun _ => 0) =
      (none, (generateSolvablePuzzle 0 2000 (fun _ => 0)).2) := by
    rw [← h2]
  refine ⟨?_, ?_, (giveUp_policy 2 1).2.2.2 ⟨[], [], [], 1, tfRNG⟩⟩
  · exact (giveUp_policy 2 1).1 0 ⟨[], [], [], 1, tfRNG⟩ 0 0 0 _ _ _
      (by decide) hgen (by decide)
  · have h := (giveUp_policy 0 1).2.2.1 0 ⟨[], [], [], 1, fun _ => 0⟩ 0 0 0 _
      (by decide) hgen2
    rw [if_neg (by decide : ¬ (0 + 1 ≥ MAX_CONSECUTIVE_FAILS))] at h
    exact h

/-! ## Claim C5: re-solve reproducibility -/

/-- C5.  Re-solve reproducibility: every record the generation phase adds
stores a board `g` together with exactly the path the solver returns on
`g`, so running `solveZipDFS` again on the stored board reproduces the
stored solution, and the record's canonical path key equals the canonical
key of the re-solved path.  Determinism of the solver is inherent: in the
embedding, as in the source, `solveZipDFS` is a pure function of the
board, so two runs on equal boards return equal results. -/
theorem resolve_reproducible (args : Args) (existing : List RawRecord) (f : RNG) :
    ∀ q ∈ (mainRun args existing f).puzzles.drop existing.length,
      ∃ g p, q.grid = JsonGrid.arr g ∧ solveZipDFS g = some p ∧
        q.solutionPath = JsonPath.str (solutionPathToString (intPath p)) ∧
        recSolKey q = some (puzzleSolutionKey g.length (intPath p)) := by
  intro q hq
  obtain ⟨new, h1, -, -, h4, -, -, -⟩ := mainRun_spec args existing f
  rw [h1, List.drop_left] at hq
  obtain ⟨g, p, hg, hs, hpstr⟩ := h4 q hq
  refine ⟨g, p, hg, hs, hpstr, ?_⟩
  have hne : p ≠ [] := solveZipDFS_ne_nil hs
  have hne' : intPath p ≠ [] := by
    cases p with
    | nil => exact absurd rfl hne
    | cons a t => simp [intPath]
  simp only [recSolKey, hg, hpstr, decodeGrid, decodeSol,
    stringToSolutionPath_roundTrip (intPath p) hne']

set_option maxRecDepth 20000 in
theorem resolve_reproducible_witness :
    ∃ g p,
      (⟨some 1, .arr [[1, 2], [3, 0]],
          .str (solutionPathToString (intPath [(0, 0), (0, 1), (1, 1), (1, 0)]))⟩ :
        RawRecord).grid = JsonGrid.arr g ∧
      solveZipDFS g = some p ∧
      (⟨some 1, .arr [[1, 2], [3, 0]],
          .str (solutionPathToString (intPath [(0, 0), (0, 1), (1, 1), (1, 0)]))⟩ :
        RawRecord).solutionPath = JsonPath.str (solutionPathToString (intPath p)) ∧
      recSolKey
        ⟨some 1, .arr [[1, 2], [3, 0]],
          .str (solutionPathToString (intPath [(0, 0), (0, 1), (1, 1), (1, 0)]))⟩ =
        some (puzzleSolutionKey g.length (intPath p)) :=
  resolve_reproducible oneOf2Args [] tfRNG _ (by decide)

/-! ## Claim C3: duplicate exclusion -/

/-- C3 counterexample: the generator only dedupes *new* candidates against
the key sets; it never removes or rejects duplicates already present in the
loaded collection.  Starting from a persisted collection holding the same
record twice, the resulting collection still holds two records (positions 0
and 1) sharing both their board key and their path key, so the claim is
false for runs over arbitrary persisted collections. -/
theorem dedup_counterexample :
    (mainRun oneOf2Args dupExisting tfRNG).puzzles.length = 3 ∧
    recGridKey ((mainRun oneOf2Args dupExisting tfRNG).puzzles.getD 0 dupRecord) =
      some (puzzleGridKey 2 [[2, 1], [3, 0]]) ∧
    recGridKey ((mainRun oneOf2Args dupExisting tfRNG).puzzles.getD 1 dupRecord) =
      some (puzzleGridKey 2 [[2, 1], [3, 0]]) ∧
    recSolKey ((mainRun oneOf2Args dupExisting tfRNG).puzzles.getD 0 dupRecord) =
      some (puzzleSolutionKey 2 [(0, 0)]) ∧
    recSolKey ((mainRun oneOf2Args dupExisting tfRNG).puzzles.getD 1 dupRecord) =
      some (puzzleSolutionKey 2 [(0, 0)]) := by
  refine ⟨by decide, by decide, by decide, by decide, by decide⟩

/-- C3 (amended).  Duplicate exclusion as the code actually guarantees it:
*provided* the loaded collection is itself free of key duplicates, no two
records of the resulting collection share a board key and no two share a
path key; and each of the two keys is an independent rejection criterion
for a new candidate — a candidate whose board key alone, or whose path key
alone, is already registered is counted as a failure and never appended.
The unamended claim (for arbitrary persisted collections) is refuted by
`dedup_counterexample`: duplicates already on disk are loaded verbatim. -/
theorem dedup_invariant (args : Args) (existing : List RawRecord) (f : RNG)
    (hdist : DistinctKeys existing) :
    DistinctKeys (mainRun args existing f).puzzles ∧
    (∀ n target fuel st got fails att g p f',
      got < target →
      generateSolvablePuzzle n 2000 st.rng = (some (g, p), f') →
      st.seenGrids.contains (puzzleGridKey n g) = true →
      sizeLoop n target (fuel + 1) st got fails att =
        if fails + 1 ≥ MAX_CONSECUTIVE_FAILS then
          ⟨⟨st.puzzles, st.seenGrids, st.seenSols, st.nextId, f'⟩, got, fails + 1, att + 1⟩
        else sizeLoop n target fuel
          ⟨st.puzzles, st.seenGrids, st.seenSols, st.nextId, f'⟩ got (fails + 1) (att + 1)) ∧
    (∀ n target fuel st got fails att g p f',
      got < target →
      generateSolvablePuzzle n 2000 st.rng = (some (g, p), f') →
      st.seenSols.contains (puzzleSolutionKey n (intPath p)) = true →
      sizeLoop n target (fuel + 1) st got fails att =
        if fails + 1 ≥ MAX_CONSECUTIVE_FAILS then
          ⟨⟨st.puzzles, st.seenGrids, st.seenSols, st.nextId, f'⟩, got, fails + 1, att + 1⟩
        else sizeLoop n target fuel
          ⟨st.puzzles, st.seenGrids, st.seenSols, st.nextId, f'⟩ got (fails + 1) (att + 1)) := by
  refine ⟨?_, ?_, ?_⟩
  · obtain ⟨-, -, -, hgk, hsk, -⟩ := loadFold_spec existing ⟨[], [], 1⟩
    obtain ⟨-, -, -, -, -, -, -, h7⟩ := mainRun_spec args existing f
    exact (h7 ⟨hgk, hsk, hdist⟩).2.2
  · intro n target fuel st got fails att g p f' hgot hgen hg
    rw [sizeLoop_succ, if_pos hgot]
    simp only [hgen]
    rw [hg, Bool.true_or, if_pos rfl]
  · intro n target fuel st got fails att g p f' hgot hgen hs
    rw [sizeLoop_succ, if_pos hgot]
    simp only [hgen]
    rw [hs, Bool.or_true, if_pos rfl]

theorem dedup_invariant_witness :
    DistinctKeys (mainRun oneOf2Args [] tfRNG).puzzles ∧
    (sizeLoop 2 1 1 ⟨[], [puzzleGridKey 2 [[1, 2], [3, 0]]], [], 1, tfRNG⟩ 0 0 0 =
      sizeLoop 2 1 0 ⟨[], [puzzleGridKey 2 [[1, 2], [3, 0]]], [],
        1, (generateSolvablePuzzle 2 2000 tfRNG).2⟩ 0 1 1) ∧
    (sizeLoop 2 1 1
        ⟨[], [], [puzzleSolutionKey 2 (intPath [(0, 0), (0, 1), (1, 1), (1, 0)])],
          1, tfRNG⟩ 0 0 0 =
      sizeLoop 2 1 0
        ⟨[], [], [puzzleSolutionKey 2 (intPath [(0, 0), (0, 1), (1, 1), (1, 0)])],
          1, (generateSolvablePuzzle 2 2000 tfRNG).2⟩ 0 1 1) := by
  have h1 : (generateSolvablePuzzle 2 2000 tfRNG).1 =
      some ([[1, 2], [3, 0]], [(0, 0), (0, 1), (1, 1), (1, 0)]) := by decide
  have hgen : generateSolvablePuzzle 2 2000 tfRNG =
      (some ([[1, 2], [3, 0]], [(0, 0), (0, 1), (1, 1), (1, 0)]),
        (generateSolvablePuzzle 2 2000 tfRNG).2) := by
    rw [← h1]
  have hd := dedup_invariant oneOf2Args [] tfRNG List.Pairwise.nil
  refine ⟨hd.1, ?_, ?_⟩
  · have h := hd.2.1 2 1 0 ⟨[], [puzzleGridKey 2 [[1, 2], [3, 0]]], [], 1, tfRNG⟩
      0 0 0 _ _ _ (by decide) hgen (by decide)
    rw [if_neg (by decide : ¬ (0 + 1 ≥ MAX_CONSECUTIVE_FAILS))] at h
    exact h
  · have h := hd.2.2 2 1 0
      ⟨[], [], [puzzleSolutionKey 2 (intPath [(0, 0), (0, 1), (1, 1), (1, 0)])], 1, tfRNG⟩
      0 0 0 _ _ _ (by decide) hgen (by decide)
    rw [if_neg (by decide : ¬ (0 + 1 ≥ MAX_CONSECUTIVE_FAILS))] at h
    exact h

/-! ## Claim C4: idempotent append and id monotonicity -/

/-- C4 counterexample: the load loop skips any record whose board does not
decode *before* looking at its id, so such a record's id never enters the
`max(existing ids) + 1` computation.  Against a persisted collection whose
only record has id 7 but an undecodable board, the run appends a new record
with id 1, which is not strictly greater than the maximum loaded id. -/
theorem id_monotonicity_counterexample :
    ((mainRun oneOf2Args badIdExisting tfRNG).puzzles.map fun q => q.id) =
      [some 7, some 1] ∧
    badIdExisting.map (fun q => q.id) = [some 7] ∧ ¬ ((7 : Int) < 1) :=
  ⟨by decide, by decide, by decide⟩

/-- C4 (amended).  Idempotent append holds unconditionally: previously
persisted records are left unmodified and in their original positions, and
new records are only appended.  Id monotonicity holds *provided* every
loaded record's board decodes: then every finite loaded id is strictly
below the starting counter (which is at least 1), and the new records'
ids are exactly consecutive values counting up from it — strictly
increasing in acceptance order and never reused, even across give-ups,
because the counter only ever increases.  Without the proviso the id
guarantee fails: see `id_monotonicity_counterexample` — a record whose
board does not decode is skipped before its id reaches the max
computation. -/
theorem id_monotonicity (args : Args) (existing : List RawRecord) (f : RNG)
    (hdec : ∀ q ∈ existing, (decodeGrid q.grid).isSome) :
    ∃ new : List RawRecord,
      (mainRun args existing f).puzzles = existing ++ new ∧
      (new.map fun q => q.id) =
        (List.range new.length).map
          (fun j : Nat => some ((loadPhase existing).nextId + (j : Int))) ∧
      1 ≤ (loadPhase existing).nextId ∧
      (∀ q ∈ existing, ∀ i, q.id = some i → i < (loadPhase existing).nextId) := by
  obtain ⟨new, h1, -, h3, -, -, -, -⟩ := mainRun_spec args existing f
  obtain ⟨hmono, -, -, -, -, hid⟩ := loadFold_spec existing ⟨[], [], 1⟩
  exact ⟨new, h1, h3, hmono, fun q hq i hi => hid q hq (hdec q hq) i hi⟩

theorem id_monotonicity_witness :
    ∃ new : List RawRecord,
      (mainRun oneOf2Args [dupRecord] tfRNG).puzzles = [dupRecord] ++ new ∧
      (new.map fun q => q.id) =
        (List.range new.length).map
          (fun j : Nat => some ((loadPhase [dupRecord]).nextId + (j : Int))) ∧
      1 ≤ (loadPhase [dupRecord]).nextId ∧
      (∀ q ∈ [dupRecord], ∀ i, q.id = some i → i < (loadPhase [dupRecord]).nextId) :=
  id_monotonicity oneOf2Args [dupRecord] tfRNG (by decide)
